import Mathlib

/-!
Verification of the BusTub-style storage engine (CMU 15-445 implementation).

Shallow embedding of the repository's buffer pool manager, LRU-K replacer,
page guards, B+Tree index, hash/nested-loop join executors and the
seq-scan-to-index-scan optimizer rule, together with proofs settling the
frozen claims C1..C10.

Machine integers (`size_t`, `int`, `page_id_t`) are modelled as `Nat`/`Int`;
`std::numeric_limits<size_t>::max()` is the explicit constant `SIZEMAX`.
C++ code that throws (`throw Exception(...)`, `BUSTUB_ASSERT`) is modelled
with `Except String` / `Option`.  Every definition is translated from the
corresponding function in `src/`; the doc comments name the source function.
-/

namespace LRUK

/-- Model of `std::numeric_limits<size_t>::max()`, used by the replacer as the
+infinity backward k-distance marker (`src/include/buffer/lru_k_replacer.h`). -/
def SIZEMAX : Nat := 2 ^ 64 - 1

/-- Model of `LRUKNode` from `src/include/buffer/lru_k_replacer.h`: bounded history of
the last K access timestamps (oldest at the front), the k parameter, the
frame id and the evictable flag. -/
structure LRUKNode where
  history : List Nat
  k : Nat
  fid : Nat
  isEvictable : Bool
deriving Repr, DecidableEq

/-- Model of `LRUKNode::AddTimestamp`: push the timestamp at the back; if the history
now exceeds `k` entries, drop the oldest (front) entry. -/
def LRUKNode.addTimestamp (n : LRUKNode) (ts : Nat) : LRUKNode :=
  let h := n.history ++ [ts]
  if h.length > n.k then { n with history := h.tail } else { n with history := h }

/-- Model of `LRUKNode::GetBackwardDistance`: `SIZEMAX` (+infinity) when fewer than `k`
timestamps are recorded, otherwise `current_timestamp - history_.front()`.
(`history_.front()` on an empty list is undefined in C++; we read it as
`headD 0`, and all theorems assume non-empty histories, which `RecordAccess`
guarantees for every node it creates.) -/
def LRUKNode.getBackwardDistance (n : LRUKNode) (cur : Nat) : Nat :=
  if n.history.length < n.k then SIZEMAX else cur - n.history.headD 0

/-- Model of `LRUKNode::GetHistory().front()` as used by `Evict` for the classical-LRU
tie break: `SIZEMAX` when the history is empty, else the oldest timestamp. -/
def LRUKNode.earliestTs (n : LRUKNode) : Nat :=
  if n.history = [] then SIZEMAX else n.history.headD 0

/-- Model of `LRUKReplacer` state (`src/include/buffer/lru_k_replacer.h`):
`node_store_` is modelled as a list (the `unordered_map` iterated by `Evict`
in unspecified order; the list order stands for that iteration order),
plus the monotone timestamp counter, the evictable count `curr_size_`,
the frame-id bound `replacer_size_` and the parameter `k_`. -/
structure ReplacerState where
  nodeStore : List LRUKNode
  currentTimestamp : Nat
  currSize : Nat
  replacerSize : Nat
  k : Nat
deriving Repr, DecidableEq

/-- Fresh replacer, as built by `LRUKReplacer::LRUKReplacer(num_frames, k)`. -/
def ReplacerState.init (numFrames kDist : Nat) : ReplacerState :=
  { nodeStore := [], currentTimestamp := 0, currSize := 0
    replacerSize := numFrames, k := kDist }

/-- Model of `LRUKReplacer::RecordAccess` (`src/buffer/lru_k_replacer.cpp`):
abort (`none`) on an out-of-range frame id; create the node (empty history,
non-evictable) if missing; push the current timestamp; bump the counter. -/
def recordAccess (s : ReplacerState) (fid : Nat) : Option ReplacerState :=
  if fid < s.replacerSize then
    let store :=
      if s.nodeStore.any (fun n => n.fid = fid) then s.nodeStore
      else s.nodeStore ++ [{ history := [], k := s.k, fid := fid, isEvictable := false }]
    let store := store.map (fun n =>
      if n.fid = fid then n.addTimestamp s.currentTimestamp else n)
    some { s with nodeStore := store, currentTimestamp := s.currentTimestamp + 1 }
  else none

/-- Model of `LRUKReplacer::SetEvictable`: abort on an out-of-range frame id; no-op when
the frame is unknown or the flag is unchanged; otherwise toggle the flag and
adjust `curr_size_`. -/
def setEvictable (s : ReplacerState) (fid : Nat) (b : Bool) : Option ReplacerState :=
  if fid < s.replacerSize then
    match s.nodeStore.find? (fun n => n.fid = fid) with
    | none => some s
    | some node =>
        if node.isEvictable = b then some s
        else
          some { s with
            nodeStore := s.nodeStore.map (fun n =>
              if n.fid = fid then { n with isEvictable := b } else n)
            currSize := if b then s.currSize + 1 else s.currSize - 1 }
  else none

/-- One iteration of the candidate scan in `LRUKReplacer::Evict`
(`src/buffer/lru_k_replacer.cpp`, lines 76-98).  The accumulator is
`(evict_id, max_distance, min_timestamp)` with `evict_id = none` standing for
`INVALID_FRAME_ID`. -/
def evictStep (cur : Nat) (acc : Option Nat × Nat × Nat) (node : LRUKNode) :
    Option Nat × Nat × Nat :=
  let (evictId, maxDistance, minTimestamp) := acc
  if node.isEvictable then
    let curDist := node.getBackwardDistance cur
    let curEarliestTs := node.earliestTs
    if curDist = SIZEMAX then
      if evictId = none ∨ curEarliestTs < minTimestamp then
        (some node.fid, curDist, curEarliestTs)
      else acc
    else if curDist > maxDistance then
      (some node.fid, curDist, minTimestamp)
    else acc
  else acc

/-- Model of `LRUKReplacer::Evict` (`src/buffer/lru_k_replacer.cpp`): `none` on an empty
store or a zero evictable count; otherwise scan all nodes with `evictStep`;
on success erase the chosen record and decrement `curr_size_`. -/
def evict (s : ReplacerState) : Option Nat × ReplacerState :=
  if s.nodeStore = [] then (none, s)
  else if s.currSize = 0 then (none, s)
  else
    match (s.nodeStore.foldl (evictStep s.currentTimestamp) (none, 0, SIZEMAX)).1 with
    | some fid =>
        (some fid,
          { s with nodeStore := s.nodeStore.filter (fun n => n.fid ≠ fid)
                   currSize := s.currSize - 1 })
    | none => (none, s)

/-- Model of `LRUKReplacer::Remove`: abort on out-of-range id, return unchanged when the
frame is unknown, abort (`none`, modelling the thrown exception) on a
non-evictable frame, otherwise erase the record and decrement the count. -/
def removeFrame (s : ReplacerState) (fid : Nat) : Option ReplacerState :=
  if fid < s.replacerSize then
    match s.nodeStore.find? (fun n => n.fid = fid) with
    | none => some s
    | some node =>
        if node.isEvictable then
          some { s with nodeStore := s.nodeStore.filter (fun n => n.fid ≠ fid)
                        currSize := s.currSize - 1 }
        else none
  else none

/-- Well-formedness of a replacer state, maintained by the operations above and
assumed by the `Evict` correctness theorem: `curr_size_` counts the evictable
nodes, node histories are non-empty with all timestamps strictly below the
current counter, every node carries the replacer's `k`, frame ids are
distinct, and the counter has not saturated `size_t`. -/
def ReplacerInv (s : ReplacerState) : Prop :=
  s.currSize = (s.nodeStore.filter (fun n => n.isEvictable)).length ∧
  (∀ n ∈ s.nodeStore, n.history ≠ [] ∧ (∀ ts ∈ n.history, ts < s.currentTimestamp) ∧
    n.k = s.k) ∧
  1 ≤ s.k ∧
  s.currentTimestamp < SIZEMAX ∧
  (s.nodeStore.map (fun n => n.fid)).Nodup

end LRUK

namespace BPM

open LRUK

/-- Model of `FrameHeader` (`src/include/buffer/buffer_pool_manager.h`, constructed in
`src/buffer/buffer_pool_manager.cpp`): frame id, atomic pin count, dirty flag
and the 4 KiB data buffer, abstracted to a single `Nat`. -/
structure FrameHeader where
  frameId : Nat
  pinCount : Nat
  isDirty : Bool
  data : Nat
deriving Repr, DecidableEq

/-- Model of `FrameHeader::Reset`: zero the data, zero the pin count, clear dirty. -/
def FrameHeader.reset (f : FrameHeader) : FrameHeader :=
  { f with data := 0, pinCount := 0, isDirty := false }

/-- Model of `BufferPoolManager` state (`src/include/buffer/buffer_pool_manager.h`):
frame count, atomic `next_page_id_`, free-frame deque, page table
(`unordered_map<page_id_t, frame_id_t>` modelled as an association list),
frame headers indexed by frame id, the LRU-K replacer, and the disk contents
written through the disk scheduler (page id to data). -/
structure BPMState where
  numFrames : Nat
  nextPageId : Nat
  freeFrames : List Nat
  pageTable : List (Nat × Nat)
  frames : List FrameHeader
  replacer : ReplacerState
  disk : List (Nat × Nat)
deriving Repr, DecidableEq

/-- Association-list lookup for the page table / disk. -/
def alookup (l : List (Nat × Nat)) (k : Nat) : Option Nat :=
  (l.find? (fun p => p.1 = k)).map (fun p => p.2)

/-- Association-list write (`operator[]` assignment). -/
def aset (l : List (Nat × Nat)) (k v : Nat) : List (Nat × Nat) :=
  if l.any (fun p => p.1 = k) then l.map (fun p => if p.1 = k then (k, v) else p)
  else l ++ [(k, v)]

/-- Association-list erase (`unordered_map::erase`). -/
def aerase (l : List (Nat × Nat)) (k : Nat) : List (Nat × Nat) :=
  l.filter (fun p => p.1 ≠ k)

/-- Update the frame header with a given frame id in place. -/
def setFrame (fs : List FrameHeader) (fid : Nat) (g : FrameHeader → FrameHeader) :
    List FrameHeader :=
  fs.map (fun f => if f.frameId = fid then g f else f)

/-- Read the frame header with a given frame id (`frames_[frame_id]`). -/
def getFrame (fs : List FrameHeader) (fid : Nat) : FrameHeader :=
  (fs.find? (fun f => f.frameId = fid)).getD
    { frameId := fid, pinCount := 0, isDirty := false, data := 0 }

/-- Model of `BufferPoolManager::BufferPoolManager`: counter at 0, one reset frame
header per frame id, every frame initially in the free list. -/
def BPMState.init (numFrames kDist : Nat) : BPMState :=
  { numFrames := numFrames
    nextPageId := 0
    freeFrames := List.range numFrames
    pageTable := []
    frames := (List.range numFrames).map
      (fun i => { frameId := i, pinCount := 0, isDirty := false, data := 0 })
    replacer := ReplacerState.init numFrames kDist
    disk := [] }

/-- Model of `BufferPoolManager::FlushPageUnsafe` (`src/buffer/buffer_pool_manager.cpp`):
`false` when the page is not resident (the page id may be `INVALID_PAGE_ID`,
hence `Int`); `true` without I/O when the frame is clean; otherwise schedule a
write through the disk scheduler (the worker performs it and fulfills the
promise with `true`), then clear the dirty flag. -/
def flushPageUnsafe (s : BPMState) (pid : Int) : Bool × BPMState :=
  match s.pageTable.find? (fun p => (p.1 : Int) = pid) with
  | none => (false, s)
  | some (p, fid) =>
      let frame := getFrame s.frames fid
      if ¬frame.isDirty then (true, s)
      else
        (true, { s with disk := aset s.disk p frame.data
                        frames := setFrame s.frames fid (fun f => { f with isDirty := false }) })

/-- The page id currently mapped to a frame, found by the linear page-table
scan used in `NewPage` / `CheckedReadPage` / `CheckedWritePage`; stays
`INVALID_PAGE_ID` (modelled as `-1`) when no mapping points at the frame. -/
def pageOfFrame (pt : List (Nat × Nat)) (fid : Nat) : Int :=
  match pt.find? (fun p => p.2 = fid) with
  | none => -1
  | some (p, _) => (p : Int)

/-- Model of `BufferPoolManager::NewPage` (`src/buffer/buffer_pool_manager.cpp`,
lines 173-228): `next_page_id_.fetch_add(1)` happens first; then a frame is
taken from the free list, else from `Evict()` (flushing and unmapping the
victim's old page); on no victim the call returns `INVALID_PAGE_ID = -1`
with the counter already consumed.  On success the frame is reset, pinned to
1, mapped, access-recorded and marked non-evictable.  `none` models an
aborted replacer assertion. -/
def newPage (s : BPMState) : Option (Int × BPMState) := do
  let newPageId := s.nextPageId
  let s := { s with nextPageId := s.nextPageId + 1 }
  let pick : Option (Nat × BPMState) :=
    match s.freeFrames with
    | fid :: rest => some (fid, { s with freeFrames := rest })
    | [] =>
        match evict s.replacer with
        | (none, _) => none
        | (some fid, r) =>
            let s := { s with replacer := r }
            let oldPageId := pageOfFrame s.pageTable fid
            let (_, s) := flushPageUnsafe s oldPageId
            let pt := s.pageTable.filter (fun p => (p.1 : Int) ≠ oldPageId)
            some (fid, { s with pageTable := pt })
  match pick with
  | none => some (-1, s)
  | some (fid, s) =>
      let s := { s with
        frames := setFrame s.frames fid (fun f => { f.reset with pinCount := 1 })
        pageTable := aset s.pageTable newPageId fid }
      let r ← recordAccess s.replacer fid
      let r ← setEvictable r fid false
      some ((newPageId : Int), { s with replacer := r })

/-- A `ReadPageGuard`/`WritePageGuard` as far as the model observes it: the
guarded page id, the frame id of the frame holding it, and the validity flag
(`is_valid_`). -/
structure Guard where
  pageId : Nat
  frameId : Nat
  valid : Bool
deriving Repr, DecidableEq

/-- Model of `BufferPoolManager::CheckedReadPage` (`src/buffer/buffer_pool_manager.cpp`,
lines 508-581).  Result: `none` for an aborted assertion, `some none` for
`std::nullopt` (invalid page id or no frame available), `some (some ...)` for
a produced guard with the post state.  Resident case: the pin count is
incremented only when it is currently 0; the access is recorded and the frame
marked non-evictable.  Miss case: obtain a frame (free list first, else evict
a victim after flushing and unmapping its old page), reset it, pin to 1,
schedule the disk read into the frame, install the mapping, record access and
mark non-evictable. -/
def checkedReadPage (s : BPMState) (pid : Nat) : Option (Option (Guard × BPMState)) := do
  if pid ≥ s.nextPageId then
    some none
  else
    match alookup s.pageTable pid with
    | some fid =>
        let frame := getFrame s.frames fid
        let frames :=
          if frame.pinCount = 0 then
            setFrame s.frames fid (fun f => { f with pinCount := f.pinCount + 1 })
          else s.frames
        let s := { s with frames := frames }
        let r ← recordAccess s.replacer fid
        let r ← setEvictable r fid false
        some (some ({ pageId := pid, frameId := fid, valid := true }, { s with replacer := r }))
    | none =>
        let freed : Option BPMState :=
          if s.freeFrames = [] then
            match evict s.replacer with
            | (none, _) => none
            | (some victim, r) =>
                let s := { s with replacer := r }
                let oldPageId := pageOfFrame s.pageTable victim
                let (_, s) := flushPageUnsafe s oldPageId
                some { s with
                  pageTable := s.pageTable.filter (fun p => (p.1 : Int) ≠ oldPageId)
                  freeFrames := s.freeFrames ++ [victim] }
          else some s
        match freed with
        | none => some none
        | some s =>
            match s.freeFrames with
            | [] => some none
            | fid :: rest =>
                let s := { s with freeFrames := rest }
                let s := { s with
                  frames := setFrame s.frames fid (fun f => { f.reset with pinCount := 1 }) }
                let s := { s with
                  frames := setFrame s.frames fid
                    (fun f => { f with data := (alookup s.disk pid).getD 0 }) }
                let s := { s with pageTable := aset s.pageTable pid fid }
                let r ← recordAccess s.replacer fid
                let r ← setEvictable r fid false
                some (some ({ pageId := pid, frameId := fid, valid := true },
                  { s with replacer := r }))

/-- Model of `ReadPageGuard::Drop` (`src/storage/page/page_guard.cpp`, lines 252-279):
no-op on an invalid guard; otherwise invalidate, decrement the pin count if
positive, release the latch, then under the BPM latch record an access and
set the frame evictable exactly when the new pin count is 0.  `none` models
an aborted replacer assertion. -/
def readGuardDrop (s : BPMState) (g : Guard) : Option (BPMState × Guard) := do
  if ¬g.valid then
    some (s, g)
  else
    let g := { g with valid := false }
    let frames := setFrame s.frames g.frameId
      (fun f => if f.pinCount > 0 then { f with pinCount := f.pinCount - 1 } else f)
    let s := { s with frames := frames }
    let pinNow := (getFrame s.frames g.frameId).pinCount
    let r ← recordAccess s.replacer g.frameId
    let r ← setEvictable r g.frameId (pinNow = 0)
    some ({ s with replacer := r }, g)

/-- Outcome of a guard `Flush()` call: it returns with a post state, it blocks
forever, or it aborts (failed `BUSTUB_ENSURE`). -/
inductive FlushResult where
  | returns (s : BPMState)
  | blocks
  | aborts
deriving Repr, DecidableEq

/-- Model of `std::future::get()` on the completion promise: returns the fulfilled
value, and blocks forever (`none`) when nothing ever fulfills the promise. -/
def futureGet (promise : Option Bool) : Option Bool := promise

/-- Model of `ReadPageGuard::Flush` = `WritePageGuard::Flush`
(`src/storage/page/page_guard.cpp`, lines 211-229 and 491-507): ensure the
guard is valid; create a fresh (unfulfilled) promise; only if the frame is
dirty, schedule a write through the disk scheduler, whose worker performs the
write and fulfills the promise with `true`; then `future.get()`; then clear
the dirty flag.  When the frame is not dirty no request is scheduled, so the
promise is never fulfilled and `future.get()` blocks forever. -/
def guardFlush (s : BPMState) (g : Guard) : FlushResult :=
  if ¬g.valid then .aborts
  else
    let frame := getFrame s.frames g.frameId
    let afterSchedule : Option Bool × BPMState :=
      if frame.isDirty then
        (some true, { s with disk := aset s.disk g.pageId frame.data })
      else (none, s)
    match futureGet afterSchedule.1 with
    | none => .blocks
    | some _ =>
        .returns { afterSchedule.2 with
          frames := setFrame afterSchedule.2.frames g.frameId
            (fun f => { f with isDirty := false }) }

end BPM

namespace BPT

/-- The message of `bustub::Exception("Index out of bounds")` thrown by the
B+Tree page accessors in `src/storage/page/b_plus_tree_leaf_page.cpp` and
`src/storage/page/b_plus_tree_internal_page.cpp`. -/
def EOOB : String := "Index out of bounds"

/-- A `BPlusTreeLeafPage` (`src/include/storage/page/b_plus_tree_leaf_page.h`
layout, accessors in `src/storage/page/b_plus_tree_leaf_page.cpp`): the
backing arrays `key_array_` / `rid_array_` are modelled as total functions
(the page's fixed slot array), with the `size_`, `max_size_` and
`next_page_id_` header fields.  Keys and RIDs are both abstracted to `Nat`. -/
structure LeafData where
  keys : Nat → Nat
  vals : Nat → Nat
  size : Nat
  maxSize : Nat
  next : Int

/-- Model of `BPlusTreeLeafPage::Init`: size 0, `next_page_id_ = INVALID_PAGE_ID`,
given max size; the freshly reset frame is zeroed. -/
def leafInit (maxSize : Nat) : LeafData :=
  { keys := fun _ => 0, vals := fun _ => 0, size := 0, maxSize := maxSize, next := -1 }

/-- Model of `BPlusTreeLeafPage::KeyAt`: throws `Index out of bounds` unless
`0 ≤ index < GetSize()`. -/
def leafKeyAt (d : LeafData) (i : Int) : Except String Nat :=
  if i < 0 ∨ i ≥ (d.size : Int) then .error EOOB else .ok (d.keys i.toNat)

/-- Model of `BPlusTreeLeafPage::SetKeyAt`: throws `Index out of bounds` unless
`0 ≤ index < GetSize()` (note: the bound is the *current size*, not the
capacity). -/
def leafSetKeyAt (d : LeafData) (i : Int) (k : Nat) : Except String LeafData :=
  if i < 0 ∨ i ≥ (d.size : Int) then .error EOOB
  else .ok { d with keys := fun j => (if (j : Int) = i then k else d.keys j) }

/-- Model of `BPlusTreeLeafPage::ValueAt`: throws `Index out of bounds` unless
`0 ≤ index < GetSize()`. -/
def leafValueAt (d : LeafData) (i : Int) : Except String Nat :=
  if i < 0 ∨ i ≥ (d.size : Int) then .error EOOB else .ok (d.vals i.toNat)

/-- Model of `BPlusTreeLeafPage::SetValueAt`.  Modelled from the spec: this member is
declared in `b_plus_tree_leaf_page.h`, which is not among the provided
sources; following the leaf page layout in the spec and the sibling
`BPlusTreeInternalPage::SetValueAt` (which checks `index < 0 || index >
GetMaxSize()`), it writes the slot after a capacity check.  No claim below
depends on this choice: on every path that reaches a `SetValueAt` write
outside the current size, a `SetKeyAt` with the size-bounded check either
precedes or follows it in the same loop body, so the paths fail either way. -/
def leafSetValueAt (d : LeafData) (i : Int) (v : Nat) : Except String LeafData :=
  if i < 0 ∨ i > (d.maxSize : Int) then .error EOOB
  else .ok { d with vals := fun j => (if (j : Int) = i then v else d.vals j) }

/-- Model of `BPlusTreePage::GetMinSize` for a leaf page
(`src/storage/page/b_plus_tree_page.cpp`, lines 89-97): `max_size_ / 2`. -/
def leafGetMinSize (d : LeafData) : Nat := d.maxSize / 2

/-- A B+Tree node: a leaf page, or an internal page whose `page_id_array_`
(child page ids, resolved through the buffer pool) is modelled as the
positional function `children`; `keys` models `key_array_` (slot 0 unused),
with the `size_` / `max_size_` header fields. -/
inductive Node where
  | leaf (d : LeafData)
  | internal (keys : Nat → Nat) (children : Nat → Node) (size : Nat) (maxSize : Nat)

/-- Model of `BPlusTreeInternalPage::KeyAt`: throws unless `0 < index < GetMaxSize()`. -/
def internalKeyAt (keys : Nat → Nat) (maxSize : Nat) (i : Int) : Except String Nat :=
  if i ≤ 0 ∨ i ≥ (maxSize : Int) then .error EOOB else .ok (keys i.toNat)

/-- Model of `BPlusTreeInternalPage::SetKeyAt`: throws unless `0 < index ≤ GetMaxSize()`. -/
def internalSetKeyAt (keys : Nat → Nat) (maxSize : Nat) (i : Int) (k : Nat) :
    Except String (Nat → Nat) :=
  if i ≤ 0 ∨ i > (maxSize : Int) then .error EOOB
  else .ok (fun j => if (j : Int) = i then k else keys j)

/-- Model of `BPlusTreeInternalPage::ValueAt` (child pointer read): throws unless
`0 ≤ index < GetSize()`; resolving the child page id yields the subtree. -/
def internalChildAt (children : Nat → Node) (size : Nat) (i : Int) : Except String Node :=
  if i < 0 ∨ i ≥ (size : Int) then .error EOOB else .ok (children i.toNat)

/-- Model of `BPlusTreeInternalPage::SetValueAt`: throws unless
`0 ≤ index ≤ GetMaxSize()`. -/
def internalSetChildAt (children : Nat → Node) (maxSize : Nat) (i : Int) (c : Node) :
    Except String (Nat → Node) :=
  if i < 0 ∨ i > (maxSize : Int) then .error EOOB
  else .ok (fun j => if (j : Int) = i then c else children j)

/-- The child-selection loop of `BPlusTree::FindLeafPage`
(`src/storage/index/b_plus_tree.cpp`, lines 471-477): starting from
`index = size - 1`, walk `i = 1, ..` keeping `index = i` while
`key ≥ keys[i]`, stopping at the first `key < keys[i]`. -/
def childIndexGo (keys : Nat → Nat) (size maxSize key i idx : Nat) : Except String Nat :=
  if i < size then
    match internalKeyAt keys maxSize (i : Int) with
    | .error e => .error e
    | .ok ki => if key < ki then .ok idx else childIndexGo keys size maxSize key (i + 1) i
  else .ok idx
termination_by size - i

/-- Child selection in `BPlusTree::FindLeafPage` (lines 471-481): the loop
above followed by the `key < keys[1]` override to child 0. -/
def childIndex (keys : Nat → Nat) (size maxSize key : Nat) : Except String Nat :=
  match childIndexGo keys size maxSize key 1 (size - 1) with
  | .error e => .error e
  | .ok idx =>
      match internalKeyAt keys maxSize 1 with
      | .error e => .error e
      | .ok k1 => if key < k1 then .ok 0 else .ok idx

/-- Model of `BPlusTree::FindLeafPage` (`src/storage/index/b_plus_tree.cpp`, lines
455-513): descend from the root, choosing the child via `childIndex` and
reading the child pointer (`ValueAt`), until a leaf page is reached.  The
`Operation` parameter does not influence the descent (the crabbing release
code is commented out in the source). -/
def findLeaf : Node → Nat → Except String LeafData
  | .leaf d, _ => .ok d
  | .internal keys children size maxSize, key =>
      match childIndex keys size maxSize key with
      | .error e => .error e
      | .ok idx =>
          if idx < size then findLeaf (children idx) key
          else .error EOOB

/-- The lookup loop of `BPlusTree::GetValue` (lines 97-104): linear scan of
the leaf; on the first exact match push the value onto the result vector and
return `true`; `false` when the scan runs off the end. -/
def getValueScan (d : LeafData) (key : Nat) (result : List Nat) (i : Nat) :
    Except String (List Nat × Bool) :=
  if i < d.size then
    match leafKeyAt d (i : Int) with
    | .error e => .error e
    | .ok ki =>
        if key = ki then
          match leafValueAt d (i : Int) with
          | .error e => .error e
          | .ok vi => .ok (result ++ [vi], true)
        else getValueScan d key result (i + 1)
  else .ok (result, false)
termination_by d.size - i

/-- Model of `BPlusTree::GetValue` (`src/storage/index/b_plus_tree.cpp`, lines 74-113):
on an empty tree return `false` immediately (the result vector is *not*
cleared); otherwise clear the result vector, descend to the leaf and run the
scan loop.  The tree is `none` when the header page's root id is
`INVALID_PAGE_ID`. -/
def getValue (root : Option Node) (key : Nat) (result : List Nat) :
    Except String (List Nat × Bool) :=
  match root with
  | none => .ok (result, false)
  | some n =>
      match findLeaf n key with
      | .error e => .error e
      | .ok d => getValueScan d key ([] : List Nat) 0

/-- The duplicate-key scan of `BPlusTree::Insert` (lines 360-365): `true` iff
some slot of the leaf holds the key. -/
def dupScanGo (d : LeafData) (key : Nat) (i : Nat) : Except String Bool :=
  if i < d.size then
    match leafKeyAt d (i : Int) with
    | .error e => .error e
    | .ok ki => if ki = key then .ok true else dupScanGo d key (i + 1)
  else .ok false
termination_by d.size - i

/-- The insert-position scan of `BPlusTree::Insert` (lines 369-372 and
411-414): smallest `i` with `i = size` or `keys[i] ≥ key`. -/
def insertPosGo (d : LeafData) (key : Nat) (i : Nat) : Except String Nat :=
  if i < d.size then
    match leafKeyAt d (i : Int) with
    | .error e => .error e
    | .ok ki => if ki < key then insertPosGo d key (i + 1) else .ok i
  else .ok i
termination_by d.size - i

/-- The shift loop of the non-full leaf insert (lines 375-378):
`for (j = size-1; j >= i; j--) { SetValueAt(j+1, ValueAt(j)); SetKeyAt(j+1,
KeyAt(j)); }`. -/
def leafShiftGo (d : LeafData) (i : Nat) (j : Int) : Except String LeafData :=
  if _h : j ≥ (i : Int) then
    match leafValueAt d j with
    | .error e => .error e
    | .ok vj =>
        match leafSetValueAt d (j + 1) vj with
        | .error e => .error e
        | .ok d =>
            match leafKeyAt d j with
            | .error e => .error e
            | .ok kj =>
                match leafSetKeyAt d (j + 1) kj with
                | .error e => .error e
                | .ok d => leafShiftGo d i (j - 1)
  else .ok d
termination_by (j + 1 - (i : Int)).toNat
decreasing_by omega

/-- The entry-pooling loop of the leaf split (lines 405-408): read all
`size` key/value pairs of the full leaf into vectors. -/
def poolGo (d : LeafData) (i : Nat) (ks vs : List Nat) :
    Except String (List Nat × List Nat) :=
  if i < d.size then
    match leafKeyAt d (i : Int) with
    | .error e => .error e
    | .ok ki =>
        match leafValueAt d (i : Int) with
        | .error e => .error e
        | .ok vi => poolGo d (i + 1) (ks ++ [ki]) (vs ++ [vi])
  else .ok (ks, vs)
termination_by d.size - i

/-- The old-leaf refill loop of the split (lines 420-425): write pooled
entries `0 ≤ i < GetMinSize()` back into the old leaf. -/
def oldLeafFillGo (d : LeafData) (ks vs : List Nat) (i minSize : Nat) :
    Except String LeafData :=
  if i < minSize then
    match leafSetKeyAt d (i : Int) (ks.getD i 0) with
    | .error e => .error e
    | .ok d =>
        match leafSetValueAt d (i : Int) (vs.getD i 0) with
        | .error e => .error e
        | .ok d => oldLeafFillGo d ks vs (i + 1) minSize
  else .ok d
termination_by minSize - i

/-- The new-leaf fill loop of the split (lines 427-430): write pooled entries
`minSize ≤ i < num` into slots `j = 0, 1, ...` of the fresh right sibling. -/
def newLeafFillGo (nd : LeafData) (ks vs : List Nat) (i j num : Nat) :
    Except String LeafData :=
  if i < num then
    match leafSetKeyAt nd (j : Int) (ks.getD i 0) with
    | .error e => .error e
    | .ok nd =>
        match leafSetValueAt nd (j : Int) (vs.getD i 0) with
        | .error e => .error e
        | .ok nd => newLeafFillGo nd ks vs (i + 1) (j + 1) num
  else .ok nd
termination_by num - i

/-- Result of inserting into a subtree: a duplicate key (return `false`,
nothing written), a completed insert with the rebuilt subtree, or a leaf /
internal split handing `(left, middle key, right)` to the parent, exactly the
arguments of `InsertIntoParent(old, middle_key, new)`. -/
inductive InsRes where
  | dup
  | done (n : Node)
  | split (left : Node) (mid : Nat) (right : Node)

/-- The leaf-level body of `BPlusTree::Insert`
(`src/storage/index/b_plus_tree.cpp`, lines 356-451): duplicate scan; if the
leaf has room, shift and insert in sorted position (`ChangeSizeBy(1)`);
otherwise allocate a fresh leaf (`bpm_->NewPage()` is modelled as an
inexhaustible allocator handing out `pid`), pool all entries plus the new
pair in sorted order, refill the old leaf with the first `GetMinSize()`
pooled entries and the new leaf with the rest, set the sizes
(`old = GetMinSize()`, `new = num - old`), splice the sibling chain, and hand
`(old, new->KeyAt(0), new)` to the parent. -/
def insertLeaf (d : LeafData) (key v : Nat) (pid : Nat) : Except String (InsRes × Nat) :=
  match dupScanGo d key 0 with
  | .error e => .error e
  | .ok true => .ok (.dup, pid)
  | .ok false =>
    if d.size < d.maxSize then
      match insertPosGo d key 0 with
      | .error e => .error e
      | .ok i =>
          match leafShiftGo d i ((d.size : Int) - 1) with
          | .error e => .error e
          | .ok d =>
              match leafSetKeyAt d (i : Int) key with
              | .error e => .error e
              | .ok d =>
                  match leafSetValueAt d (i : Int) v with
                  | .error e => .error e
                  | .ok d => .ok (.done (.leaf { d with size := d.size + 1 }), pid)
    else
      let newLeafId := pid
      let pid := pid + 1
      let nd := leafInit d.maxSize
      match poolGo d 0 [] [] with
      | .error e => .error e
      | .ok (ks, vs) =>
          match insertPosGo d key 0 with
          | .error e => .error e
          | .ok ipos =>
              let ks := ks.take ipos ++ key :: ks.drop ipos
              let vs := vs.take ipos ++ v :: vs.drop ipos
              let num := d.size + 1
              let minSize := leafGetMinSize d
              match oldLeafFillGo d ks vs 0 minSize with
              | .error e => .error e
              | .ok d =>
                  match newLeafFillGo nd ks vs minSize 0 num with
                  | .error e => .error e
                  | .ok nd =>
                      let d := { d with size := minSize }
                      let nd := { nd with size := num - minSize }
                      let nd := { nd with next := d.next }
                      let d := { d with next := (newLeafId : Int) }
                      match leafKeyAt nd 0 with
                      | .error e => .error e
                      | .ok mid => .ok (.split (.leaf d) mid (.leaf nd), pid)

/-- Default node used to read a zeroed child slot of a fresh internal page. -/
def defaultNode : Node := .leaf (leafInit 0)

/-- The insert-position loop of `BPlusTree::InsertIntoParent`
(`src/storage/index/b_plus_tree.cpp`, lines 634-641 and 670-676): default
position `size`; the first `i ∈ [1, size)` with `middle_key < keys[i]`. -/
def parentFindIndexGo (keys : Nat → Nat) (size maxSize mk i : Nat) : Except String Nat :=
  if i < size then
    match internalKeyAt keys maxSize (i : Int) with
    | .error e => .error e
    | .ok ki => if mk < ki then .ok i else parentFindIndexGo keys size maxSize mk (i + 1)
  else .ok size
termination_by size - i

/-- The shift loop of the non-full parent insert (lines 644-647):
`for (i = size; i > insert_index; i--) { SetKeyAt(i, KeyAt(i-1));
SetValueAt(i, ValueAt(i-1)); }`. -/
def parentShiftGo (keys : Nat → Nat) (children : Nat → Node) (size maxSize insertIndex : Nat)
    (i : Int) : Except String ((Nat → Nat) × (Nat → Node)) :=
  if _h : i > (insertIndex : Int) then
    match internalKeyAt keys maxSize (i - 1) with
    | .error e => .error e
    | .ok kprev =>
        match internalSetKeyAt keys maxSize i kprev with
        | .error e => .error e
        | .ok keys =>
            match internalChildAt children size (i - 1) with
            | .error e => .error e
            | .ok cprev =>
                match internalSetChildAt children maxSize i cprev with
                | .error e => .error e
                | .ok children => parentShiftGo keys children size maxSize insertIndex (i - 1)
  else .ok (keys, children)
termination_by (i - (insertIndex : Int)).toNat
decreasing_by omega

/-- The pooling loop of the parent split (lines 689-693): collect
`keys[1..size)` and `values[1..size)`. -/
def parentPoolGo (keys : Nat → Nat) (children : Nat → Node) (size maxSize i : Nat)
    (ks : List Nat) (vs : List Node) : Except String (List Nat × List Node) :=
  if i < size then
    match internalKeyAt keys maxSize (i : Int) with
    | .error e => .error e
    | .ok ki =>
        match internalChildAt children size (i : Int) with
        | .error e => .error e
        | .ok ci => parentPoolGo keys children size maxSize (i + 1) (ks ++ [ki]) (vs ++ [ci])
  else .ok (ks, vs)
termination_by size - i

/-- The old-parent refill loop of the parent split (lines 705-708):
`for (i = 1; i < mid; i++) { SetKeyAt(i, keys[i-1]); SetValueAt(i,
values[i]); }`. -/
def parentOldFillGo (keys : Nat → Nat) (children : Nat → Node) (maxSize : Nat)
    (ks : List Nat) (vs : List Node) (i mid : Nat) :
    Except String ((Nat → Nat) × (Nat → Node)) :=
  if i < mid then
    match internalSetKeyAt keys maxSize (i : Int) (ks.getD (i - 1) 0) with
    | .error e => .error e
    | .ok keys =>
        match internalSetChildAt children maxSize (i : Int) (vs.getD i defaultNode) with
        | .error e => .error e
        | .ok children => parentOldFillGo keys children maxSize ks vs (i + 1) mid
  else .ok (keys, children)
termination_by mid - i

/-- The new-node fill loop of the parent split (lines 712-715):
`for (i = mid+1, j = 1; i < num; i++, j++) { new.SetKeyAt(j, keys[i-1]);
new.SetValueAt(j, values[i]); }`. -/
def parentNewFillGo (keys : Nat → Nat) (children : Nat → Node) (maxSize : Nat)
    (ks : List Nat) (vs : List Node) (i j num : Nat) :
    Except String ((Nat → Nat) × (Nat → Node)) :=
  if i < num then
    match internalSetKeyAt keys maxSize (j : Int) (ks.getD (i - 1) 0) with
    | .error e => .error e
    | .ok keys =>
        match internalSetChildAt children maxSize (j : Int) (vs.getD i defaultNode) with
        | .error e => .error e
        | .ok children => parentNewFillGo keys children maxSize ks vs (i + 1) (j + 1) num
  else .ok (keys, children)
termination_by num - i

/-- The non-root branch of `BPlusTree::InsertIntoParent`
(`src/storage/index/b_plus_tree.cpp`, lines 622-767), applied to the parent
internal page `(keys, children, size, maxSize)` with the child split result
`(middle_key, right)`: if the parent has room, shift and insert the pair at
the found position; otherwise split the parent around
`mid = GetMinSize() = (max_size_ + 1) / 2`, promoting `keys[mid-1]` and
recursing upward via the returned `InsRes.split`. -/
def insertIntoParentNode (keys : Nat → Nat) (children : Nat → Node) (size maxSize : Nat)
    (mk : Nat) (right : Node) (internalMax pid : Nat) : Except String (InsRes × Nat) :=
  if size < maxSize then
    match parentFindIndexGo keys size maxSize mk 1 with
    | .error e => .error e
    | .ok insertIndex =>
        match parentShiftGo keys children size maxSize insertIndex (size : Int) with
        | .error e => .error e
        | .ok (keys, children) =>
            match internalSetKeyAt keys maxSize (insertIndex : Int) mk with
            | .error e => .error e
            | .ok keys =>
                match internalSetChildAt children maxSize (insertIndex : Int) right with
                | .error e => .error e
                | .ok children =>
                    .ok (.done (.internal keys children (size + 1) maxSize), pid)
  else
    let pid := pid + 1
    let nkeys : Nat → Nat := fun _ => 0
    let nchildren : Nat → Node := fun _ => defaultNode
    match parentFindIndexGo keys size maxSize mk 1 with
    | .error e => .error e
    | .ok insertIndex =>
        if insertIndex = 0 then .error "b_pluss_tree.cpp 616"
        else
          match internalChildAt children size 0 with
          | .error e => .error e
          | .ok c0 =>
              match parentPoolGo keys children size maxSize 1 [] [c0] with
              | .error e => .error e
              | .ok (ks, vs) =>
                  let ks := ks.take (insertIndex - 1) ++ mk :: ks.drop (insertIndex - 1)
                  let vs := vs.take insertIndex ++ right :: vs.drop insertIndex
                  let num := size + 1
                  let mid := (maxSize + 1) / 2
                  match internalSetChildAt children maxSize 0 (vs.getD 0 defaultNode) with
                  | .error e => .error e
                  | .ok children =>
                      match parentOldFillGo keys children maxSize ks vs 1 mid with
                      | .error e => .error e
                      | .ok (keys, children) =>
                          let promoted := ks.getD (mid - 1) 0
                          match internalSetChildAt nchildren internalMax 0
                              (vs.getD mid defaultNode) with
                          | .error e => .error e
                          | .ok nchildren =>
                              match parentNewFillGo nkeys nchildren internalMax ks vs
                                  (mid + 1) 1 num with
                              | .error e => .error e
                              | .ok (nkeys, nchildren) =>
                                  .ok (.split (.internal keys children mid maxSize)
                                    promoted
                                    (.internal nkeys nchildren (num - mid) internalMax), pid)

/-- One level of the insertion: the leaf body of `BPlusTree::Insert` at the
target leaf, or, at an internal node, the `FindLeafPage` child selection
followed by the recursive insert and — when the child split — the
`InsertIntoParent` handling on this node. -/
def insertRec (n : Node) (key v leafMax internalMax pid : Nat) :
    Except String (InsRes × Nat) :=
  match n with
  | .leaf d => insertLeaf d key v pid
  | .internal keys children size maxSize =>
      match childIndex keys size maxSize key with
      | .error e => .error e
      | .ok idx =>
          if idx < size then
            match insertRec (children idx) key v leafMax internalMax pid with
            | .error e => .error e
            | .ok (.dup, pid) => .ok (.dup, pid)
            | .ok (.done c, pid) =>
                .ok (.done (.internal keys
                  (fun j => if j = idx then c else children j) size maxSize), pid)
            | .ok (.split l mk r, pid) =>
                insertIntoParentNode keys
                  (fun j => if j = idx then l else children j) size maxSize mk r
                  internalMax pid
          else .error EOOB

/-- Model of `BPlusTree::Insert` (`src/storage/index/b_plus_tree.cpp`, lines 319-452)
together with the root branch of `InsertIntoParent` (lines 586-619).
The tree is `none` when the header's root id is `INVALID_PAGE_ID`; in that
case a fresh root leaf is initialized and the pair written
(`SetKeyAt(0, key)` before `SetSize(1)`).  Otherwise descend, insert, and on
a root split build a new internal root `(left, middle_key, right)` of size 2.
`bpm_->NewPage()` is modelled as an inexhaustible allocator handing out the
counter `pid`; its out-of-memory branch is therefore never taken. -/
def bptInsert (root : Option Node) (key v leafMax internalMax pid : Nat) :
    Except String (Option Node × Bool × Nat) :=
  match root with
  | none =>
      let pid := pid + 1
      let d := leafInit leafMax
      match leafSetKeyAt d 0 key with
      | .error e => .error e
      | .ok d =>
          match leafSetValueAt d 0 v with
          | .error e => .error e
          | .ok d => .ok (some (.leaf { d with size := 1 }), true, pid)
  | some n =>
      match insertRec n key v leafMax internalMax pid with
      | .error e => .error e
      | .ok (.dup, pid) => .ok (some n, false, pid)
      | .ok (.done m, pid) => .ok (some m, true, pid)
      | .ok (.split l mk r, pid) =>
          let pid := pid + 1
          let rkeys : Nat → Nat := fun _ => 0
          let rchildren : Nat → Node := fun _ => defaultNode
          match internalSetChildAt rchildren internalMax 0 l with
          | .error e => .error e
          | .ok rchildren =>
              match internalSetKeyAt rkeys internalMax 1 mk with
              | .error e => .error e
              | .ok rkeys =>
                  match internalSetChildAt rchildren internalMax 1 r with
                  | .error e => .error e
                  | .ok rchildren =>
                      .ok (some (.internal rkeys rchildren 2 internalMax), true, pid)

/-- The positioning loop of `BPlusTree::Begin(const KeyType &)`
(`src/storage/index/b_plus_tree.cpp`, lines 1254-1257): starting from
`index = -1`, advance while `index < size` and `KeyAt(index) != key`.  The
very first iteration evaluates `KeyAt(-1)`. -/
def beginScanGo (d : LeafData) (key : Nat) (index : Int) : Except String Int :=
  if _h : index < (d.size : Int) then
    match leafKeyAt d index with
    | .error e => .error e
    | .ok ki => if ki ≠ key then beginScanGo d key (index + 1) else .ok index
  else .ok index
termination_by ((d.size : Int) - index).toNat
decreasing_by omega

/-- Model of `BPlusTree::Begin(const KeyType &)` (`src/storage/index/b_plus_tree.cpp`,
lines 1244-1266): descend with `FindLeafPage` to the target leaf, then run
the positioning loop from `index = -1`; the iterator is built on the
resulting index. -/
def bptBeginKey (root : Node) (key : Nat) : Except String Int :=
  match findLeaf root key with
  | .error e => .error e
  | .ok d => beginScanGo d key (-1)

/-- Well-formedness of the internal pages of a tree, as maintained by a
B+Tree: every internal page has between 2 and `max_size_` children and
well-formed subtrees.  (Leaf scans are bounds-checked against `size_`
directly, so leaves need no condition.) -/
def wfNode : Node → Prop
  | .leaf _ => True
  | .internal _ children size maxSize =>
      2 ≤ size ∧ size ≤ maxSize ∧ ∀ i, i < size → wfNode (children i)

end BPT

namespace JEQ

/-- A `bustub::Value` of a data column: `none` is the SQL NULL. -/
abbrev Val := Option Nat

/-- A tuple, read through `Tuple::GetValue` column by column. -/
abbrev Row := List Val

/-- Model of `CmpBool` of the type subsystem. -/
inductive CmpBool where
  | cmpFalse
  | cmpTrue
  | cmpNull
deriving DecidableEq, Repr

/-- Modelled from the spec: `Value::CompareEquals` belongs to the type
subsystem, an external collaborator (spec §1, §6 lists expression/value
evaluation as interface-only); standard three-valued SQL equality: any NULL
operand yields `CmpNull`, otherwise the values are compared.  This is the
comparison used *both* by the join predicate and by the hash-join `EqualKey`
functor in `src/include/execution/executors/hash_join_executor.h`. -/
def compareEquals : Val → Val → CmpBool
  | some a, some b => if a = b then .cmpTrue else .cmpFalse
  | _, _ => .cmpNull

/-- Model of `Tuple::GetValue(&schema, i)`: read column `i`. -/
def colVal (r : Row) (i : Nat) : Val := r.getD i none

/-- The equi-join predicate tree handed to the nested-loop join: a conjunction
of `ComparisonExpression(Equal, column-of-left, column-of-right)` nodes. -/
inductive JPred where
  | eqCols (li ri : Nat)
  | andP (p q : JPred)

/-- Modelled from the spec: `LogicExpression` AND evaluation (expression
trees are interface-only collaborators); three-valued logic — false if
either operand is false, null if neither is false but one is null. -/
def and3 : Option Bool → Option Bool → Option Bool
  | some false, _ => some false
  | _, some false => some false
  | some true, some true => some true
  | _, _ => none

/-- Model of `AbstractExpression::EvaluateJoin` on the equi-join predicate tree:
equality nodes via `compareEquals`, AND nodes via `and3`. -/
def evalJoin : JPred → Row → Row → Option Bool
  | .eqCols li ri, l, r =>
      match compareEquals (colVal l li) (colVal r ri) with
      | .cmpTrue => some true
      | .cmpFalse => some false
      | .cmpNull => none
  | .andP p q, l, r => and3 (evalJoin p l r) (evalJoin q l r)

/-- The predicate test in `NestedLoopJoinExecutor::Next`
(`src/execution/nested_loop_join_executor.cpp`, line 80):
`!result.IsNull() && result.GetAs<bool>()`. -/
def acceptVal : Option Bool → Bool
  | some b => b
  | none => false

/-- The join types both executors accept (any other type throws in the
constructors of `HashJoinExecutor` and `NestedLoopJoinExecutor`). -/
inductive JoinType where
  | inner
  | left
deriving DecidableEq, Repr

/-- Model of `ValueFactory::GetNullValueByType` applied to each right-schema column
(the NULL padding of an unmatched left tuple). -/
def nullRow (rw : Nat) : Row := List.replicate rw none

/-- The inner loop of `NestedLoopJoinExecutor::Next`
(`src/execution/nested_loop_join_executor.cpp`, lines 51-125) for one left
tuple: probe every right tuple in order, emitting `left ++ right` whenever
the predicate holds (setting `left_matched_`); when the right side is
exhausted, a LEFT join emits `left ++ NULLs` iff no match was seen. -/
def nljInner (jt : JoinType) (p : JPred) (l : Row) (rs : List Row) (matched : Bool)
    (rw : Nat) : List Row :=
  match rs with
  | [] => if jt = .left ∧ matched = false then [l ++ nullRow rw] else []
  | r :: rest =>
      if acceptVal (evalJoin p l r) then (l ++ r) :: nljInner jt p l rest true rw
      else nljInner jt p l rest matched rw

/-- The full tuple stream of `NestedLoopJoinExecutor`: for each left tuple
(in order) the right child is re-initialized and fully probed. -/
def nljRun (jt : JoinType) (p : JPred) (ls rs : List Row) (rw : Nat) : List Row :=
  ls.flatMap (fun l => nljInner jt p l rs false rw)

/-- Key extraction: evaluate the join key expressions (single-column
`ColumnValueExpression`s, as produced by the NLJ-to-hash-join rewrite)
against a tuple. -/
def keyOf (cols : List Nat) (row : Row) : List Val := cols.map (colVal row)

/-- The `EqualKey` functor of
`src/include/execution/executors/hash_join_executor.h` (lines 59-71): keys
are equal iff same length and every component pair compares `CmpTrue`. -/
def equalKeyL : List Val → List Val → Bool
  | [], [] => true
  | a :: as, b :: bs =>
      if compareEquals a b = CmpBool.cmpTrue then equalKeyL as bs else false
  | _, _ => false

/-- The build-side hash table `hash_table_ : unordered_map<vector<Value>,
vector<Tuple>, HashKey, EqualKey>`, modelled as an association list with
`EqualKey` equality (bucket order stands for the map's unspecified order). -/
abbrev HTable := List (List Val × List Row)

/-- Model of `hash_table_[right_key].emplace_back(right_tuple)`
(`src/execution/hash_join_executor.cpp`, line 59): append to the first
bucket whose key is `EqualKey`-equal, else create a fresh bucket. -/
def htInsert (t : HTable) (k : List Val) (r : Row) : HTable :=
  match t with
  | [] => [(k, [r])]
  | (k0, rs0) :: rest =>
      if equalKeyL k0 k then (k0, rs0 ++ [r]) :: rest
      else (k0, rs0) :: htInsert rest k r

/-- Model of `hash_table_.find(left_key)` (line 136). -/
def htFind : HTable → List Val → Option (List Row)
  | [], _ => none
  | (k0, rs0) :: rest, k => if equalKeyL k0 k then some rs0 else htFind rest k

/-- The build phase of `HashJoinExecutor::Init` (lines 51-60): drain the
right child, inserting each tuple under its right-key vector. -/
def buildTable (rcols : List Nat) (rs : List Row) : HTable :=
  rs.foldl (fun t r => htInsert t (keyOf rcols r) r) []

/-- The full tuple stream of `HashJoinExecutor::Next`
(`src/execution/hash_join_executor.cpp`, lines 75-145): per left tuple the
matches of the probe (`current_matches_`, empty on a failed `find`) are
emitted in order as `left ++ right`; a LEFT join emits `left ++ NULLs` once
iff there was no match (`left_tuple_matched_` stays false exactly when
`current_matches_` is empty). -/
def hashJoinRun (jt : JoinType) (lcols rcols : List Nat) (ls rs : List Row)
    (rw : Nat) : List Row :=
  let t := buildTable rcols rs
  ls.flatMap (fun l =>
    let ms := (htFind t (keyOf lcols l)).getD []
    if ms.isEmpty then (if jt = .left then [l ++ nullRow rw] else [])
    else ms.map (fun r => l ++ r))

/-- The conjunction predicate corresponding to a non-empty list of
(left column, right column) equality pairs. -/
def predOfPairs : List (Nat × Nat) → JPred
  | [] => .eqCols 0 0
  | [(i, j)] => .eqCols i j
  | (i, j) :: rest => .andP (.eqCols i j) (predOfPairs rest)

end JEQ

namespace SSIS

/-- Model of `ComparisonType` as far as the rule inspects it. -/
inductive CompType where
  | equal
  | other
deriving DecidableEq, Repr

/-- Model of `LogicType` as far as the rule inspects it. -/
inductive LogicType where
  | orL
  | andL
deriving DecidableEq, Repr

/-- The expression tree shapes distinguished by the `dynamic_cast`s of
`src/optimizer/seqscan_as_indexscan.cpp`: comparisons, logic nodes, column
references, constants, and anything else. -/
inductive SExpr where
  | comparison (ct : CompType) (l r : SExpr)
  | logic (lt : LogicType) (l r : SExpr)
  | column (colIdx : Nat)
  | constant (v : Nat)
  | otherExpr
deriving DecidableEq, Repr

/-- Model of `ExtractEqualityConditions` (`src/optimizer/seqscan_as_indexscan.cpp`,
lines 26-70): an `Equal` comparison contributes its constant when the other
side is a column reference to the target column (either orientation); an
`Or` node contributes the concatenation of both sides; everything else
contributes nothing.  No deduplication is performed. -/
def extractEqualityConditions (e : SExpr) (target : Nat) : List Nat :=
  match e with
  | .comparison ct l r =>
      if ct = .equal then
        match l, r with
        | .column c, .constant v => if c = target then [v] else []
        | .constant v, .column c => if c = target then [v] else []
        | _, _ => []
      else []
  | .logic lt l r =>
      if lt = .orL then
        extractEqualityConditions l target ++ extractEqualityConditions r target
      else []
  | _ => []

/-- Model of `IsIndexFriendly` (`src/optimizer/seqscan_as_indexscan.cpp`, lines
72-110): the predicate is an OR-tree whose every leaf is an `Equal`
comparison between the target column and a constant. -/
def isIndexFriendly (e : SExpr) (target : Nat) : Bool :=
  match e with
  | .comparison ct l r =>
      if ct ≠ .equal then false
      else
        match l, r with
        | .column c, .constant _ => c = target
        | .constant _, .column c => c = target
        | _, _ => false
  | .logic lt l r =>
      if lt = .orL then isIndexFriendly l target && isIndexFriendly r target
      else false
  | _ => false

/-- The produced `IndexScanPlanNode` as far as the claim observes it: the
point-lookup key list (`pred_keys_`, `ConstantValueExpression`s in order)
and the filter predicate (`nullptr` modelled as `none`). -/
structure IndexScanPlan where
  predKeys : List Nat
  filterPredicate : Option SExpr
deriving DecidableEq, Repr

/-- The per-index body of `Optimizer::OptimizeSeqScanAsIndexScan`
(`src/optimizer/seqscan_as_indexscan.cpp`, lines 179-202), given the table
column `column_idx` of a single-column index: skip (`none`) unless the
predicate is index friendly with a non-empty extracted constant list;
otherwise build the index-scan plan carrying those constants and a null
filter predicate. -/
def optimizeForIndex (pred : SExpr) (columnIdx : Nat) : Option IndexScanPlan :=
  if ¬isIndexFriendly pred columnIdx then none
  else
    let values := extractEqualityConditions pred columnIdx
    if values ≠ [] then some { predKeys := values, filterPredicate := none }
    else none

/-- The spec's applicability condition, written from the spec sentence: "the
predicate is a disjunction (OR-tree) of equalities of the form `C = const`
(or `const = C`)" on the indexed column `c`; yields the constants in
predicate order when it applies. -/
def specOrKeys (e : SExpr) (c : Nat) : Option (List Nat) :=
  match e with
  | .comparison .equal (.column c0) (.constant v) => if c0 = c then some [v] else none
  | .comparison .equal (.constant v) (.column c0) => if c0 = c then some [v] else none
  | .logic .orL l r =>
      match specOrKeys l c, specOrKeys r c with
      | some a, some b => some (a ++ b)
      | _, _ => none
  | _ => none

end SSIS

namespace BPM

/-- Post state of a `NewPage` call (identity when the call aborts an
assertion, which cannot happen in reachable states). -/
def newPageNext (s : BPMState) : BPMState := ((newPage s).map Prod.snd).getD s

/-- Iterated `NewPage` calls. -/
def iterNewPage : Nat → BPMState → BPMState
  | 0, s => s
  | n + 1, s => iterNewPage n (newPageNext s)

/-- The two-guard scenario of claim C1 on a one-frame pool with K = 2:
`NewPage` creates page 0 (pin count 1, non-evictable); two `CheckedReadPage`
hits on the resident page 0 hand out two read guards; then the first guard is
dropped while the second is still outstanding.  Returns
(pin count of frame 0 while both guards are outstanding,
 evictable flag of frame 0 in the replacer after dropping the first guard,
 validity of the second guard at that point). -/
def c1Run : Option (Nat × Bool × Bool) := do
  let (_, s1) ← newPage (BPMState.init 1 2)
  match ← checkedReadPage s1 0 with
  | none => none
  | some (g1, s2) =>
      match ← checkedReadPage s2 0 with
      | none => none
      | some (g2, s3) =>
          let pinWithTwoGuards := (getFrame s3.frames 0).pinCount
          let (s4, _) ← readGuardDrop s3 g1
          let evictableAfterDrop :=
            ((s4.replacer.nodeStore.find? (fun n => n.fid = 0)).map
              (fun n => n.isEvictable)).getD false
          some (pinWithTwoGuards, evictableAfterDrop, g2.valid)

/-- The scenario of claim C4: `NewPage` page 0 into the one-frame pool
(the reset frame is clean), take a read guard on it, and call `Flush()` on
the guard.  Returns (dirty flag of the frame at the call, flush outcome). -/
def c4Run : Option (Bool × FlushResult) := do
  let (_, s1) ← newPage (BPMState.init 1 2)
  match ← checkedReadPage s1 0 with
  | none => none
  | some (g1, s2) => some ((getFrame s2.frames 0).isDirty, guardFlush s2 g1)

/-- The page-id gap scenario of claim C9 on a one-frame pool: `NewPage`
succeeds with id 0 (frame pinned, non-evictable); a second `NewPage` finds no
free frame and no evictable victim, fails with `INVALID_PAGE_ID = -1`, yet
consumes id 1; a read guard on page 0 is taken and dropped, making the frame
evictable; a third `NewPage` then succeeds with id 2 — the successful ids 0
and 2 are not contiguous. -/
def c9GapRun : Option (Int × Int × Int) := do
  let (r1, s1) ← newPage (BPMState.init 1 2)
  let (r2, s2) ← newPage s1
  match ← checkedReadPage s2 0 with
  | none => none
  | some (g, s3) => do
      let (s4, _) ← readGuardDrop s3 g
      let (r3, _) ← newPage s4
      some (r1, r2, r3)

end BPM

namespace LRUK

/-- Per-node facts used by the `Evict` correctness proof; these are the
per-node components of `ReplacerInv`. -/
def nodeOk (cur kk : Nat) (m : LRUKNode) : Prop :=
  m.history ≠ [] ∧ (∀ ts ∈ m.history, ts < cur) ∧ m.k = kk

/-- Invariant of the candidate scan of `Evict` after processing the prefix
`seen` of the node store with accumulator `acc = (evict_id, max_distance,
min_timestamp)`: an empty candidate means no evictable node was seen; a
candidate is an evictable seen node whose distance is the running maximum,
`min_timestamp` tracks the least first-access timestamp among +infinity
candidates and stays `SIZEMAX` while the best candidate is finite. -/
def evAccInv (cur : Nat) (seen : List LRUKNode) (acc : Option Nat × Nat × Nat) : Prop :=
  (acc.1 = none → (∀ m ∈ seen, m.isEvictable = false) ∧ acc.2.1 = 0 ∧ acc.2.2 = SIZEMAX) ∧
  (∀ f, acc.1 = some f → ∃ nf, nf ∈ seen ∧ nf.fid = f ∧ nf.isEvictable = true ∧
    acc.2.1 = nf.getBackwardDistance cur ∧
    (∀ m ∈ seen, m.isEvictable = true → m.getBackwardDistance cur ≤ acc.2.1) ∧
    (acc.2.1 = SIZEMAX → acc.2.2 = nf.earliestTs ∧
      ∀ m ∈ seen, m.isEvictable = true → m.getBackwardDistance cur = SIZEMAX →
        acc.2.2 ≤ m.earliestTs) ∧
    (acc.2.1 ≠ SIZEMAX → acc.2.2 = SIZEMAX))

/-- Concrete replacer state used to witness the `Evict` theorem: frame 0 has
two recorded accesses (finite distance 4), frame 1 one access (+infinity
distance), frame 2 is not evictable. -/
def c5state : ReplacerState :=
  { nodeStore := [
      { history := [0, 3], k := 2, fid := 0, isEvictable := true },
      { history := [1], k := 2, fid := 1, isEvictable := true },
      { history := [2], k := 2, fid := 2, isEvictable := false } ]
    currentTimestamp := 4, currSize := 2, replacerSize := 3, k := 2 }

end LRUK

namespace BPT

/-- Concrete full leaf (4 keys, `max_size = 4`) used by the counterexample to
the claimed ceil(n/2) split distribution. -/
def c3leaf : LeafData :=
  { keys := fun i => [1, 2, 3, 4].getD i 0, vals := fun i => [10, 20, 30, 40].getD i 0
    size := 4, maxSize := 4, next := -1 }

/-- Concrete two-level well-formed tree used to witness the `GetValue`
theorem: root with separator key 20, left leaf `[10]`, right leaf `[20, 30]`. -/
def c10tree : Node :=
  .internal (fun i => [0, 20].getD i 0)
    (fun i =>
      if i = 0 then
        .leaf { keys := fun j => [10].getD j 0, vals := fun j => [100].getD j 0
                size := 1, maxSize := 4, next := -1 }
      else
        .leaf { keys := fun j => [20, 30].getD j 0, vals := fun j => [200, 300].getD j 0
                size := 2, maxSize := 4, next := -1 })
    2 4

end BPT

/-!
Theorems.  Each claim Ci of the specification is settled by one theorem
named below; helper lemmas precede them.
-/

namespace BPM

/-- Helper: `FlushPageUnsafe` never touches the page-id counter. -/
theorem flushPageUnsafe_nextPageId (t : BPMState) (pid : Int) :
    (flushPageUnsafe t pid).2.nextPageId = t.nextPageId := by
  unfold flushPageUnsafe
  split
  · rfl
  · dsimp only
    split <;> rfl

/-- Helper: every completed `NewPage` call bumps `next_page_id_` by exactly
one, and a non-`INVALID_PAGE_ID` result equals the counter at entry. -/
theorem newPage_shape (s : BPMState) (r : Int) (s2 : BPMState)
    (h : newPage s = some (r, s2)) :
    s2.nextPageId = s.nextPageId + 1 ∧ (r ≠ -1 → r = (s.nextPageId : Int)) := by
  unfold newPage at h
  simp only [Option.bind_eq_bind] at h
  split at h
  next heq =>
    simp only [Option.some.injEq, Prod.mk.injEq] at h
    obtain ⟨hr, hs⟩ := h
    subst hs
    constructor
    · rfl
    · intro hne
      exact absurd hr.symm hne
  next fid s3 heq =>
    have hnext3 : s3.nextPageId = s.nextPageId + 1 := by
      split at heq
      next f rest hff =>
        simp only [Option.some.injEq, Prod.mk.injEq] at heq
        obtain ⟨_, hs3⟩ := heq
        subst hs3
        rfl
      next hff =>
        split at heq
        next => exact absurd heq (by simp)
        next f rr hev =>
          simp only [Option.some.injEq, Prod.mk.injEq] at heq
          obtain ⟨_, hs3⟩ := heq
          subst hs3
          simpa using flushPageUnsafe_nextPageId
            { s with nextPageId := s.nextPageId + 1, replacer := rr } _
    rw [Option.bind_eq_some] at h
    obtain ⟨r1, h1, h⟩ := h
    rw [Option.bind_eq_some] at h
    obtain ⟨r2, h2, h⟩ := h
    simp only [Option.some.injEq, Prod.mk.injEq] at h
    obtain ⟨hr, hs⟩ := h
    subst hs
    refine ⟨hnext3, fun _ => hr.symm⟩

/-- Helper: the counter never decreases across a `NewPage` call. -/
theorem newPageNext_mono (s : BPMState) : s.nextPageId ≤ (newPageNext s).nextPageId := by
  unfold newPageNext
  cases h : newPage s with
  | none => simp
  | some p =>
      obtain ⟨r, s2⟩ := p
      have hsh := (newPage_shape s r s2 h).1
      simp [hsh]

/-- Helper: the counter never decreases across iterated `NewPage` calls. -/
theorem iterNewPage_mono (n : Nat) (s : BPMState) :
    s.nextPageId ≤ (iterNewPage n s).nextPageId := by
  induction n generalizing s with
  | zero => simp [iterNewPage]
  | succ m ih =>
      calc s.nextPageId ≤ (newPageNext s).nextPageId := newPageNext_mono s
        _ ≤ (iterNewPage m (newPageNext s)).nextPageId := ih _
        _ = (iterNewPage (m + 1) s).nextPageId := rfl

end BPM

/-- C1: the claim states that a frame's pin count is at least the number of
outstanding guards and that a frame is never marked evictable while a guard
is outstanding; this theorem exhibits the violating run: after `NewPage`
creates resident page 0 and two `CheckedReadPage` calls hand out two read
guards, the pin count is only 1 (the resident-hit path increments only from
0), and dropping one guard drives it to 0 so `ReadPageGuard::Drop` marks the
frame evictable while the second guard is still valid. -/
theorem c1_pin_count_undercounts_guards : BPM.c1Run = some (1, true, true) := rfl

/-- C4: the claim states that `Flush()` on a valid guard always returns with
the dirty flag cleared, in particular on a non-dirty frame; this theorem
evaluates the failing input: on a freshly read (clean) frame the flush
schedules nothing, so `future.get()` waits on a promise that is never
fulfilled and the call blocks forever. -/
theorem c4_flush_blocks_on_clean_frame : BPM.c4Run = some (false, .blocks) := rfl

/-- C9: every completed `BufferPoolManager::NewPage` call increments
`next_page_id_` by exactly one — also when it fails with
`INVALID_PAGE_ID = -1` because no free frame and no victim exist — a
successful call returns the entry value of the counter, results of two
successful calls separated by any number of calls are strictly increasing,
and the concrete one-frame run shows a consumed id: results 0, -1
(failed call consuming id 1), then 2. -/
theorem c9_newpage_always_consumes_page_id :
    (∀ s r s2, BPM.newPage s = some (r, s2) → s2.nextPageId = s.nextPageId + 1) ∧
    (∀ s r s2, BPM.newPage s = some (r, s2) → r ≠ -1 → r = (s.nextPageId : Int)) ∧
    (∀ s r s2 n r2 s3, BPM.newPage s = some (r, s2) → r ≠ -1 →
      BPM.newPage (BPM.iterNewPage n s2) = some (r2, s3) → r2 ≠ -1 → r < r2) ∧
    BPM.c9GapRun = some (0, -1, 2) := by
  refine ⟨fun s r s2 h => (BPM.newPage_shape s r s2 h).1,
    fun s r s2 h hr => (BPM.newPage_shape s r s2 h).2 hr, ?_, rfl⟩
  intro s r s2 n r2 s3 h hr h2 hr2
  have e1 := (BPM.newPage_shape s r s2 h).2 hr
  have e2 := (BPM.newPage_shape _ r2 s3 h2).2 hr2
  have m1 := (BPM.newPage_shape s r s2 h).1
  have m2 := BPM.iterNewPage_mono n s2
  omega

/-- Witness for C9 at a concrete two-frame pool: the first call returns id 0
and bumps the counter to 1, and a second immediately following successful
call returns a strictly larger id. -/
theorem c9_newpage_always_consumes_page_id_witness :
    (BPM.newPageNext (BPM.BPMState.init 2 2)).nextPageId = 1 ∧
    ((0 : Int) ≠ -1 → (0 : Int) = ((BPM.BPMState.init 2 2).nextPageId : Int)) ∧
    (0 : Int) < 1 := by
  have h1 : BPM.newPage (BPM.BPMState.init 2 2) =
      some (0, BPM.newPageNext (BPM.BPMState.init 2 2)) := rfl
  have h2 : BPM.newPage (BPM.iterNewPage 0 (BPM.newPageNext (BPM.BPMState.init 2 2))) =
      some (1, BPM.newPageNext (BPM.iterNewPage 0
        (BPM.newPageNext (BPM.BPMState.init 2 2)))) := rfl
  obtain ⟨p1, p2, p3, _⟩ := c9_newpage_always_consumes_page_id
  refine ⟨?_, ?_, ?_⟩
  · have h := p1 _ _ _ h1
    simpa using h
  · intro h0
    exact p2 _ _ _ h1 h0
  · exact p3 (BPM.BPMState.init 2 2) 0 _ 0 1 _ h1 (by decide) h2 (by decide)

namespace BPT

/-- Helper: the `FindLeafPage` inner loop succeeds and keeps the chosen index
below `size` (the internal key reads are in bounds when `size ≤ maxSize`). -/
theorem childIndexGo_ok (keys : Nat → Nat) (size maxSize key : Nat)
    (hsm : size ≤ maxSize) :
    ∀ n i idx, size - i = n → 1 ≤ i → idx < size →
      ∃ j, childIndexGo keys size maxSize key i idx = .ok j ∧ j < size := by
  intro n
  induction n using Nat.strong_induction_on with
  | _ n ih =>
  intro i idx hn h1 hidx
  unfold childIndexGo
  by_cases hi : i < size
  · have hk : internalKeyAt keys maxSize (i : Int) = .ok (keys i) := by
      unfold internalKeyAt
      rw [if_neg]
      · simp
      · push_neg
        constructor <;> omega
    rw [hk]
    simp only [hi, if_true]
    by_cases hlt : key < keys i
    · simp only [hlt, if_true]
      exact ⟨idx, rfl, hidx⟩
    · simp only [hlt, if_false]
      exact ih (size - (i + 1)) (by omega) (i + 1) i rfl (by omega) hi
  · simp only [hi, if_false]
    exact ⟨idx, rfl, hidx⟩

/-- Helper: child selection in `FindLeafPage` succeeds on a well-formed
internal page and yields an index below `size`. -/
theorem childIndex_ok (keys : Nat → Nat) (size maxSize key : Nat)
    (h2 : 2 ≤ size) (hsm : size ≤ maxSize) :
    ∃ j, childIndex keys size maxSize key = .ok j ∧ j < size := by
  obtain ⟨j, hj, hjlt⟩ := childIndexGo_ok keys size maxSize key hsm (size - 1) 1 (size - 1)
    rfl (le_refl 1) (by omega)
  have hk1 : internalKeyAt keys maxSize (1 : Int) = .ok (keys 1) := by
    unfold internalKeyAt
    rw [if_neg]
    · simp
    · push_neg
      constructor <;> omega
  unfold childIndex
  rw [hj, hk1]
  by_cases hlt : key < keys 1
  · exact ⟨0, by simp [hlt], by omega⟩
  · exact ⟨j, by simp [hlt], hjlt⟩

/-- Helper: the descent of `FindLeafPage` reaches a leaf on a well-formed
tree. -/
theorem findLeaf_ok (n : Node) (key : Nat) (hwf : wfNode n) :
    ∃ d, findLeaf n key = .ok d := by
  induction n with
  | leaf d => exact ⟨d, rfl⟩
  | internal keys children size maxSize ih =>
      obtain ⟨h2, hsm, hch⟩ := hwf
      obtain ⟨j, hj, hjlt⟩ := childIndex_ok keys size maxSize key h2 hsm
      obtain ⟨d, hd⟩ := ih j (hch j hjlt)
      refine ⟨d, ?_⟩
      unfold findLeaf
      rw [hj]
      simp [hjlt, hd]

/-- Helper: the `GetValue` leaf scan always returns, pushing exactly one
value onto the result vector when it reports `true` and leaving the vector
unchanged when it reports `false`. -/
theorem getValueScan_shape (d : LeafData) (key : Nat) (res : List Nat) :
    ∀ n i, d.size - i = n →
      ∃ out found, getValueScan d key res i = .ok (out, found) ∧
        (found = true → ∃ v, out = res ++ [v]) ∧ (found = false → out = res) := by
  intro n
  induction n using Nat.strong_induction_on with
  | _ n ih =>
  intro i hn
  unfold getValueScan
  by_cases hi : i < d.size
  · have hk : leafKeyAt d (i : Int) = .ok (d.keys i) := by
      unfold leafKeyAt
      rw [if_neg]
      · simp
      · push_neg
        constructor <;> omega
    rw [hk]
    simp only [hi, if_true]
    by_cases he : key = d.keys i
    · have hv : leafValueAt d (i : Int) = .ok (d.vals i) := by
        unfold leafValueAt
        rw [if_neg]
        · simp
        · push_neg
          constructor <;> omega
      simp [he, hv]
    · simp only [he, if_false]
      exact ih (d.size - (i + 1)) (by omega) (i + 1) rfl
  · simp only [hi, if_false]
    exact ⟨res, false, rfl, by simp, fun _ => rfl⟩

/-- Helper: the duplicate scan of `Insert` reports no duplicate when the key
is absent from the leaf. -/
theorem dupScanGo_absent (d : LeafData) (key : Nat)
    (habs : ∀ j, j < d.size → d.keys j ≠ key) :
    ∀ n i, d.size - i = n → dupScanGo d key i = .ok false := by
  intro n
  induction n using Nat.strong_induction_on with
  | _ n ih =>
  intro i hn
  unfold dupScanGo
  by_cases hi : i < d.size
  · have hk : leafKeyAt d (i : Int) = .ok (d.keys i) := by
      unfold leafKeyAt
      rw [if_neg]
      · simp
      · push_neg
        constructor <;> omega
    rw [hk]
    simp only [hi, if_true]
    rw [if_neg (habs i hi)]
    exact ih (d.size - (i + 1)) (by omega) (i + 1) rfl
  · simp [hi]

/-- Helper: the insert-position scan of `Insert` always returns. -/
theorem insertPosGo_ok (d : LeafData) (key : Nat) :
    ∀ n i, d.size - i = n → ∃ p, insertPosGo d key i = .ok p := by
  intro n
  induction n using Nat.strong_induction_on with
  | _ n ih =>
  intro i hn
  unfold insertPosGo
  by_cases hi : i < d.size
  · have hk : leafKeyAt d (i : Int) = .ok (d.keys i) := by
      unfold leafKeyAt
      rw [if_neg]
      · simp
      · push_neg
        constructor <;> omega
    rw [hk]
    simp only [hi, if_true]
    by_cases hlt : d.keys i < key
    · simp only [hlt, if_true]
      exact ih (d.size - (i + 1)) (by omega) (i + 1) rfl
    · exact ⟨i, by simp [hlt]⟩
  · exact ⟨i, by simp [hi]⟩

/-- Helper: pooling the full leaf's entries (reads only) always returns. -/
theorem poolGo_ok (d : LeafData) :
    ∀ n i ks vs, d.size - i = n → ∃ q, poolGo d i ks vs = .ok q := by
  intro n
  induction n using Nat.strong_induction_on with
  | _ n ih =>
  intro i ks vs hn
  unfold poolGo
  by_cases hi : i < d.size
  · have hk : leafKeyAt d (i : Int) = .ok (d.keys i) := by
      unfold leafKeyAt
      rw [if_neg]
      · simp
      · push_neg
        constructor <;> omega
    have hv : leafValueAt d (i : Int) = .ok (d.vals i) := by
      unfold leafValueAt
      rw [if_neg]
      · simp
      · push_neg
        constructor <;> omega
    rw [hk, hv]
    simp only [hi, if_true]
    exact ih (d.size - (i + 1)) (by omega) (i + 1) _ _ rfl
  · exact ⟨(ks, vs), by simp [hi]⟩

/-- Helper: refilling the old (full) leaf with the first `GetMinSize()`
pooled entries succeeds and preserves size and capacity. -/
theorem oldLeafFillGo_ok (ks vs : List Nat) (minSize : Nat) :
    ∀ n (d : LeafData) i, minSize - i = n → minSize ≤ d.size → minSize ≤ d.maxSize →
      ∃ d2, oldLeafFillGo d ks vs i minSize = .ok d2 ∧
        d2.size = d.size ∧ d2.maxSize = d.maxSize := by
  intro n
  induction n using Nat.strong_induction_on with
  | _ n ih =>
  intro d i hn hms hmm
  unfold oldLeafFillGo
  by_cases hi : i < minSize
  · have hk : ∃ d1, leafSetKeyAt d (i : Int) (ks.getD i 0) = .ok d1 ∧
        d1.size = d.size ∧ d1.maxSize = d.maxSize ∧ d1.vals = d.vals := by
      unfold leafSetKeyAt
      rw [if_neg]
      · exact ⟨_, rfl, rfl, rfl, rfl⟩
      · push_neg
        constructor <;> omega
    obtain ⟨d1, hd1, hsz1, hmx1, _⟩ := hk
    rw [hd1]
    simp only [hi, if_true]
    have hv : ∃ d2, leafSetValueAt d1 (i : Int) (vs.getD i 0) = .ok d2 ∧
        d2.size = d1.size ∧ d2.maxSize = d1.maxSize := by
      unfold leafSetValueAt
      rw [if_neg]
      · exact ⟨_, rfl, rfl, rfl⟩
      · push_neg
        constructor <;> omega
    obtain ⟨d2, hd2, hsz2, hmx2⟩ := hv
    rw [hd2]
    obtain ⟨d3, hd3, hsz3, hmx3⟩ := ih (minSize - (i + 1)) (by omega) d2 (i + 1) rfl
      (by omega) (by omega)
    exact ⟨d3, hd3, by omega, by rw [hmx3, hmx2, hmx1]⟩
  · exact ⟨d, by simp [hi], rfl, rfl⟩

/-- Helper: the very first write into the fresh right sibling
(`new_leaf->SetKeyAt(0, ...)`) throws, because the sibling's size is still 0
and `BPlusTreeLeafPage::SetKeyAt` bounds-checks against the current size. -/
theorem newLeafFillGo_errors (nd : LeafData) (ks vs : List Nat) (i num : Nat)
    (hz : nd.size = 0) (hlt : i < num) :
    newLeafFillGo nd ks vs i 0 num = .error EOOB := by
  unfold newLeafFillGo
  simp only [hlt, if_true]
  have hk : leafSetKeyAt nd ((0 : Nat) : Int) (ks.getD i 0) = .error EOOB := by
    unfold leafSetKeyAt
    rw [if_pos]
    right
    omega
  rw [hk]

end BPT

/-- C2: the claim states that inserting an absent key returns `true` and a
subsequent `GetValue` yields exactly the inserted value; on the code the very
first insertion already throws: the fresh-root path calls
`SetKeyAt(0, key)` on the just-initialized leaf whose size is still 0, and
`BPlusTreeLeafPage::SetKeyAt` rejects any index `≥ GetSize()`, so
`Insert` aborts with `Index out of bounds` instead of returning `true`. -/
theorem c2_insert_throws_index_out_of_bounds (key v leafMax internalMax pid : Nat) :
    BPT.bptInsert none key v leafMax internalMax pid = .error BPT.EOOB := rfl

/-- C3 counterexample: on the full root leaf `[1,2,3,4]` (`leaf_max = 4`),
inserting key 5 must — per the claim — succeed and leave the first
`ceil(5/2) = 3` pooled entries in the old leaf; instead the insertion aborts
with `Index out of bounds`, so the claimed distribution does not happen. -/
theorem c3_counterexample_split_distribution :
    BPT.bptInsert (some (.leaf BPT.c3leaf)) 5 50 4 4 100 = .error BPT.EOOB := by
  simp [BPT.bptInsert, BPT.insertRec, BPT.insertLeaf, BPT.dupScanGo, BPT.insertPosGo,
    BPT.poolGo, BPT.oldLeafFillGo, BPT.newLeafFillGo, BPT.leafKeyAt, BPT.leafValueAt,
    BPT.leafSetKeyAt, BPT.leafSetValueAt, BPT.leafInit, BPT.leafGetMinSize, BPT.c3leaf]

/-- C3 as amended: whenever an insertion reaches a full root leaf with an
absent key, the split path pools the `n = leaf_max + 1` entries and refills
the old leaf, but the first write into the fresh right sibling throws
`Index out of bounds` (its size is still 0), so the insertion aborts and no
entries are distributed; in particular the old leaf never ends up holding
`ceil(n/2)` entries (the code would have assigned it `floor(leaf_max / 2)` =
`GetMinSize()` had the writes succeeded). -/
theorem c3_leaf_split_aborts (d : BPT.LeafData) (key v leafMax internalMax pid : Nat)
    (hfull : d.size = d.maxSize)
    (habs : ∀ i, i < d.size → d.keys i ≠ key) :
    BPT.bptInsert (some (.leaf d)) key v leafMax internalMax pid = .error BPT.EOOB := by
  have hins : BPT.insertRec (.leaf d) key v leafMax internalMax pid =
      BPT.insertLeaf d key v pid := rfl
  have hdup := BPT.dupScanGo_absent d key habs (d.size - 0) 0 rfl
  obtain ⟨⟨ks0, vs0⟩, hpool⟩ := BPT.poolGo_ok d (d.size - 0) 0 [] [] rfl
  obtain ⟨ipos, hipos⟩ := BPT.insertPosGo_ok d key (d.size - 0) 0 rfl
  have hms : BPT.leafGetMinSize d ≤ d.size := by
    unfold BPT.leafGetMinSize
    omega
  have hmm : BPT.leafGetMinSize d ≤ d.maxSize := by
    unfold BPT.leafGetMinSize
    omega
  obtain ⟨d2, hfill, _, _⟩ := BPT.oldLeafFillGo_ok
    (ks0.take ipos ++ key :: ks0.drop ipos) (vs0.take ipos ++ v :: vs0.drop ipos)
    (BPT.leafGetMinSize d) (BPT.leafGetMinSize d - 0) d 0 rfl hms hmm
  have hnew := BPT.newLeafFillGo_errors (BPT.leafInit d.maxSize)
    (ks0.take ipos ++ key :: ks0.drop ipos) (vs0.take ipos ++ v :: vs0.drop ipos)
    (BPT.leafGetMinSize d) (d.size + 1) rfl
    (by
      unfold BPT.leafGetMinSize
      omega)
  have hnotlt : ¬(d.size < d.maxSize) := by omega
  simp only [BPT.bptInsert, hins, BPT.insertLeaf, hdup, hnotlt, if_false, hpool, hipos,
    hfill, hnew]

/-- Witness for the amended C3 at the concrete full leaf `[1,2,3,4]` with
absent key 5. -/
theorem c3_leaf_split_aborts_witness :
    BPT.bptInsert (some (.leaf BPT.c3leaf)) 5 50 4 4 7 = .error BPT.EOOB := by
  apply c3_leaf_split_aborts
  · rfl
  · intro i hi
    have hi4 : i < 4 := hi
    interval_cases i <;> simp [BPT.c3leaf]

/-- C6: the claim states that `Begin(key)` positions the iterator at the
first entry with key ≥ the search key; on the code the positioning loop
starts at `index = -1` and its first step evaluates `KeyAt(-1)`, which
throws `Index out of bounds`, so `Begin(key)` aborts on every root-leaf tree
and every search key (present or absent) instead of returning an iterator. -/
theorem c6_begin_key_throws (d : BPT.LeafData) (key : Nat) :
    BPT.bptBeginKey (.leaf d) key = .error BPT.EOOB := by
  have h1 : (-1 : Int) < (d.size : Int) := by
    have h0 := Int.natCast_nonneg d.size
    omega
  simp [BPT.bptBeginKey, BPT.findLeaf, BPT.beginScanGo, BPT.leafKeyAt, h1]

/-- C10: on every non-empty well-formed tree, `GetValue` clears the
caller-supplied result vector before searching, so the outcome is
independent of the vector's prior contents and the vector afterwards holds
exactly the found value (a singleton) or is empty — found entries are never
appended after prior contents. -/
theorem c10_getvalue_clears_result_vector (n : BPT.Node) (key : Nat)
    (r1 r2 : List Nat) (hwf : BPT.wfNode n) :
    BPT.getValue (some n) key r1 = BPT.getValue (some n) key r2 ∧
    ∃ out found, BPT.getValue (some n) key r1 = .ok (out, found) ∧
      (found = true → ∃ v, out = [v]) ∧ (found = false → out = []) := by
  refine ⟨rfl, ?_⟩
  obtain ⟨d, hd⟩ := BPT.findLeaf_ok n key hwf
  obtain ⟨out, found, hscan, hfound, hnotfound⟩ :=
    BPT.getValueScan_shape d key [] (d.size - 0) 0 rfl
  refine ⟨out, found, ?_, ?_, ?_⟩
  · simp only [BPT.getValue]
    rw [hd]
    exact hscan
  · intro h
    obtain ⟨v, hv⟩ := hfound h
    exact ⟨v, by simpa using hv⟩
  · exact hnotfound

/-- Witness for C10 at the concrete two-level tree and key 30, with distinct
prior vector contents. -/
theorem c10_getvalue_clears_result_vector_witness :
    BPT.getValue (some BPT.c10tree) 30 [7, 8] = BPT.getValue (some BPT.c10tree) 30 [] ∧
    ∃ out found, BPT.getValue (some BPT.c10tree) 30 [7, 8] = .ok (out, found) ∧
      (found = true → ∃ v, out = [v]) ∧ (found = false → out = []) := by
  have hwf : BPT.wfNode BPT.c10tree := by
    refine ⟨by norm_num, by norm_num, ?_⟩
    intro i hi
    dsimp only [BPT.c10tree]
    split <;> simp [BPT.wfNode]
  exact c10_getvalue_clears_result_vector BPT.c10tree 30 [7, 8] [] hwf

namespace LRUK

/-- Helper: a backward distance never exceeds `SIZEMAX` when the timestamp
counter has not saturated. -/
theorem dist_le_simax (cur : Nat) (hcur : cur ≤ SIZEMAX) (m : LRUKNode) :
    m.getBackwardDistance cur ≤ SIZEMAX := by
  unfold LRUKNode.getBackwardDistance
  split
  · exact le_refl _
  · exact le_trans (Nat.sub_le _ _) hcur

/-- Helper: a node with a non-empty history of past timestamps has a positive
backward distance. -/
theorem dist_pos (cur kk : Nat) (m : LRUKNode) (hm : nodeOk cur kk m) :
    1 ≤ m.getBackwardDistance cur := by
  obtain ⟨hne, hts, hkk⟩ := hm
  unfold LRUKNode.getBackwardDistance
  split
  · unfold SIZEMAX
    norm_num
  · cases hh : m.history with
    | nil => exact absurd hh hne
    | cons a t =>
        have ha : a < cur := hts a (by simp [hh])
        simp [hh]
        omega

/-- Helper: the oldest recorded timestamp of a node is strictly below
`SIZEMAX`. -/
theorem earliest_lt_simax (cur kk : Nat) (hcur : cur < SIZEMAX) (m : LRUKNode)
    (hm : nodeOk cur kk m) : m.earliestTs < SIZEMAX := by
  obtain ⟨hne, hts, hkk⟩ := hm
  unfold LRUKNode.earliestTs
  rw [if_neg hne]
  cases hh : m.history with
  | nil => exact absurd hh hne
  | cons a t =>
      have ha : a < cur := hts a (by simp [hh])
      simp [hh]
      omega

/-- Helper: one step of the `Evict` candidate scan preserves the scan
invariant. -/
theorem evict_step_inv (cur kk : Nat) (hcur : cur < SIZEMAX)
    (x : LRUKNode) (hx : nodeOk cur kk x)
    (acc : Option Nat × Nat × Nat) (seen : List LRUKNode)
    (hI : evAccInv cur seen acc) :
    evAccInv cur (seen ++ [x]) (evictStep cur acc x) := by
  obtain ⟨e, mx, mn⟩ := acc
  obtain ⟨hIn, hIs⟩ := hI
  unfold evictStep
  dsimp only at hIn hIs ⊢
  by_cases hev : x.isEvictable = true
  case neg =>
    rw [if_neg hev]
    refine ⟨?_, ?_⟩
    · intro h
      obtain ⟨ha, hb, hc⟩ := hIn h
      refine ⟨?_, hb, hc⟩
      intro m hm
      rcases List.mem_append.mp hm with hm | hm
      · exact ha m hm
      · rw [List.mem_singleton.mp hm]
        simpa using hev
    · intro f hf
      obtain ⟨nf, hmem, hfid, hevf, hd, hmax, hinf, hfin⟩ := hIs f hf
      refine ⟨nf, List.mem_append_left _ hmem, hfid, hevf, hd, ?_, ?_, hfin⟩
      · intro m hm hme
        rcases List.mem_append.mp hm with hm | hm
        · exact hmax m hm hme
        · rw [List.mem_singleton.mp hm] at hme
          exact absurd hme hev
      · intro hsz
        obtain ⟨h1, h2⟩ := hinf hsz
        refine ⟨h1, ?_⟩
        intro m hm hme hmd
        rcases List.mem_append.mp hm with hm | hm
        · exact h2 m hm hme hmd
        · rw [List.mem_singleton.mp hm] at hme
          exact absurd hme hev
  case pos =>
    rw [if_pos hev]
    by_cases hdx : x.getBackwardDistance cur = SIZEMAX
    · rw [if_pos hdx]
      by_cases hcond : e = none ∨ x.earliestTs < mn
      · rw [if_pos hcond]
        refine ⟨by intro h; exact absurd h (by simp), ?_⟩
        intro f hf
        simp only [Option.some.injEq] at hf
        refine ⟨x, List.mem_append_right _ (by simp), by rw [← hf], hev, rfl, ?_, ?_, ?_⟩
        · intro m hm hme
          rw [hdx]
          exact dist_le_simax cur (le_of_lt hcur) m
        · intro _
          refine ⟨rfl, ?_⟩
          intro m hm hme hmd
          rcases List.mem_append.mp hm with hm | hm
          · rcases hcond with hcase | hcase
            · obtain ⟨ha, _, _⟩ := hIn hcase
              exact absurd hme (by simp [ha m hm])
            · rcases he : e with _ | f0
              · obtain ⟨ha, _, _⟩ := hIn he
                exact absurd hme (by simp [ha m hm])
              · obtain ⟨nf, hmem, hfid, hevf, hd, hmax, hinf, hfin⟩ := hIs f0 he
                by_cases hmx : mx = SIZEMAX
                · obtain ⟨h1, h2⟩ := hinf hmx
                  exact le_trans (le_of_lt hcase) (h2 m hm hme hmd)
                · have h1 := hmax m hm hme
                  rw [hmd] at h1
                  have h2 : mx ≤ SIZEMAX := by
                    rw [hd]
                    exact dist_le_simax cur (le_of_lt hcur) nf
                  exact absurd (le_antisymm h2 h1) hmx
          · rw [List.mem_singleton.mp hm]
        · intro h
          exact absurd hdx h
      · rw [if_neg hcond]
        push_neg at hcond
        obtain ⟨hesome, hge⟩ := hcond
        rcases he : e with _ | f0
        · exact absurd he hesome
        · obtain ⟨nf, hmem, hfid, hevf, hd, hmax, hinf, hfin⟩ := hIs f0 he
          have hmx : mx = SIZEMAX := by
            by_contra hne
            have := hfin hne
            rw [this] at hge
            exact absurd (lt_of_lt_of_le (earliest_lt_simax cur kk hcur x hx) hge) (lt_irrefl _)
          refine ⟨by intro h; exact absurd h (by simp), ?_⟩
          intro f hf
          simp only [Option.some.injEq] at hf
          subst hf
          refine ⟨nf, List.mem_append_left _ hmem, hfid, hevf, hd, ?_, ?_, hfin⟩
          · intro m hm hme
            rcases List.mem_append.mp hm with hm | hm
            · exact hmax m hm hme
            · rw [List.mem_singleton.mp hm, hdx, hmx]
          · intro hsz
            obtain ⟨h1, h2⟩ := hinf hsz
            refine ⟨h1, ?_⟩
            intro m hm hme hmd
            rcases List.mem_append.mp hm with hm | hm
            · exact h2 m hm hme hmd
            · rw [List.mem_singleton.mp hm]
              exact hge
    · rw [if_neg hdx]
      by_cases hgt : x.getBackwardDistance cur > mx
      · rw [if_pos hgt]
        have hmn : mn = SIZEMAX := by
          rcases he : e with _ | f0
          · exact (hIn he).2.2
          · obtain ⟨nf, hmem, hfid, hevf, hd, hmax, hinf, hfin⟩ := hIs f0 he
            by_cases hmx : mx = SIZEMAX
            · rw [hmx] at hgt
              exact absurd (lt_of_le_of_lt (dist_le_simax cur (le_of_lt hcur) x) hgt)
                (lt_irrefl _)
            · exact hfin hmx
        refine ⟨by intro h; exact absurd h (by simp), ?_⟩
        intro f hf
        simp only [Option.some.injEq] at hf
        refine ⟨x, List.mem_append_right _ (by simp), by rw [← hf], hev, rfl, ?_, ?_, ?_⟩
        · intro m hm hme
          rcases List.mem_append.mp hm with hm | hm
          · rcases he : e with _ | f0
            · have := (hIn he).1 m hm
              exact absurd hme (by simp [this])
            · obtain ⟨nf, hmem, hfid, hevf, hd, hmax, hinf, hfin⟩ := hIs f0 he
              exact le_trans (hmax m hm hme) (le_of_lt hgt)
          · rw [List.mem_singleton.mp hm]
        · intro hsz
          exact absurd hsz hdx
        · intro _
          exact hmn
      · rw [if_neg hgt]
        push_neg at hgt
        rcases he : e with _ | f0
        · obtain ⟨ha, hb, hc⟩ := hIn he
          rw [hb] at hgt
          have := dist_pos cur kk x hx
          omega
        · obtain ⟨nf, hmem, hfid, hevf, hd, hmax, hinf, hfin⟩ := hIs f0 he
          refine ⟨by intro h; exact absurd h (by simp), ?_⟩
          intro f hf
          simp only [Option.some.injEq] at hf
          subst hf
          refine ⟨nf, List.mem_append_left _ hmem, hfid, hevf, hd, ?_, ?_, hfin⟩
          · intro m hm hme
            rcases List.mem_append.mp hm with hm | hm
            · exact hmax m hm hme
            · rw [List.mem_singleton.mp hm]
              exact hgt
          · intro hsz
            obtain ⟨h1, h2⟩ := hinf hsz
            refine ⟨h1, ?_⟩
            intro m hm hme hmd
            rcases List.mem_append.mp hm with hm | hm
            · exact h2 m hm hme hmd
            · rw [List.mem_singleton.mp hm] at hmd
              exact absurd hmd hdx

/-- Helper: the full `Evict` candidate fold preserves the scan invariant. -/
theorem evict_fold_inv (cur kk : Nat) (hcur : cur < SIZEMAX) :
    ∀ (l : List LRUKNode) (acc : Option Nat × Nat × Nat) (seen : List LRUKNode),
      (∀ m ∈ l, nodeOk cur kk m) → evAccInv cur seen acc →
      evAccInv cur (seen ++ l) (l.foldl (evictStep cur) acc) := by
  intro l
  induction l with
  | nil =>
      intro acc seen _ hI
      simpa using hI
  | cons x t ih =>
      intro acc seen hok hI
      have h1 := evict_step_inv cur kk hcur x (hok x (by simp)) acc seen hI
      have h2 := ih (evictStep cur acc x) (seen ++ [x])
        (fun m hm => hok m (by simp [hm])) h1
      simpa [List.append_assoc] using h2

/-- Helper: the initial accumulator of the `Evict` scan satisfies the scan
invariant. -/
theorem evAccInv_init (cur : Nat) : evAccInv cur [] (none, 0, SIZEMAX) := by
  refine ⟨fun _ => ⟨by simp, rfl, rfl⟩, fun f hf => by simp at hf⟩

end LRUK

/-- C5: on any well-formed replacer state, `Evict` returns no frame exactly
when no node is evictable; when it returns a frame, that frame belongs to an
evictable node whose backward k-distance is maximal among the evictable
nodes, with ties among +infinity-distance candidates broken towards the
least oldest-access timestamp (classical LRU); the chosen record is erased
from the node store and the evictable count is decremented by one. -/
theorem c5_evict_picks_max_backward_distance (s : LRUK.ReplacerState)
    (hinv : LRUK.ReplacerInv s) :
    ((LRUK.evict s).1 = none ↔ ∀ m ∈ s.nodeStore, m.isEvictable = false) ∧
    (∀ f, (LRUK.evict s).1 = some f →
      ∃ nf, nf ∈ s.nodeStore ∧ nf.fid = f ∧ nf.isEvictable = true ∧
        (∀ m ∈ s.nodeStore, m.isEvictable = true →
          m.getBackwardDistance s.currentTimestamp ≤
            nf.getBackwardDistance s.currentTimestamp) ∧
        (nf.getBackwardDistance s.currentTimestamp = LRUK.SIZEMAX →
          ∀ m ∈ s.nodeStore, m.isEvictable = true →
            m.getBackwardDistance s.currentTimestamp = LRUK.SIZEMAX →
              nf.earliestTs ≤ m.earliestTs) ∧
        (LRUK.evict s).2.nodeStore = s.nodeStore.filter (fun m => m.fid ≠ f) ∧
        (LRUK.evict s).2.currSize + 1 = s.currSize) := by
  obtain ⟨hcount, hnodes, hk, hcur, hnodup⟩ := hinv
  have hok : ∀ m ∈ s.nodeStore, LRUK.nodeOk s.currentTimestamp s.k m :=
    fun m hm => hnodes m hm
  have hfold := LRUK.evict_fold_inv s.currentTimestamp s.k hcur s.nodeStore
    (none, 0, LRUK.SIZEMAX) [] hok (LRUK.evAccInv_init s.currentTimestamp)
  rw [List.nil_append] at hfold
  obtain ⟨hFn, hFs⟩ := hfold
  by_cases hst : s.nodeStore = []
  · constructor
    · constructor
      · intro _ m hm
        rw [hst] at hm
        simp at hm
      · intro _
        simp [LRUK.evict, hst]
    · intro f hf
      simp [LRUK.evict, hst] at hf
  · by_cases hsz : s.currSize = 0
    · have hnoev : ∀ m ∈ s.nodeStore, m.isEvictable = false := by
        intro m hm
        by_contra hcon
        have hmf : m ∈ s.nodeStore.filter (fun n => n.isEvictable) :=
          List.mem_filter.mpr ⟨hm, by simpa using hcon⟩
        have hlen : 0 < (s.nodeStore.filter (fun n => n.isEvictable)).length :=
          List.length_pos.mpr (fun he => by rw [he] at hmf; simp at hmf)
        omega
      constructor
      · constructor
        · intro _
          exact hnoev
        · intro _
          simp [LRUK.evict, hst, hsz]
      · intro f hf
        simp [LRUK.evict, hst, hsz] at hf
    · cases hres : (s.nodeStore.foldl (LRUK.evictStep s.currentTimestamp)
          (none, 0, LRUK.SIZEMAX)).1 with
      | none =>
          obtain ⟨hne, _, _⟩ := hFn hres
          constructor
          · constructor
            · intro _
              exact hne
            · intro _
              simp [LRUK.evict, hst, hsz, hres]
          · intro f hf
            simp [LRUK.evict, hst, hsz, hres] at hf
      | some f0 =>
          obtain ⟨nf, hmem, hfid, hevf, hd, hmax, hinf, hfin⟩ := hFs f0 hres
          constructor
          · constructor
            · intro hnone
              simp [LRUK.evict, hst, hsz, hres] at hnone
            · intro hall
              exact absurd (hall nf hmem) (by simp [hevf])
          · intro f hf
            have hf0 : f0 = f := by
              simp [LRUK.evict, hst, hsz, hres] at hf
              exact hf
            subst hf0
            refine ⟨nf, hmem, hfid, hevf, ?_, ?_, ?_, ?_⟩
            · intro m hm hme
              rw [← hd]
              exact hmax m hm hme
            · intro hh m hm hme hmd
              obtain ⟨h1, h2⟩ := hinf (by rw [hd]; exact hh)
              have := h2 m hm hme hmd
              rw [h1] at this
              exact this
            · simp [LRUK.evict, hst, hsz, hres]
            · simp [LRUK.evict, hst, hsz, hres]
              omega

/-- Witness for C5 at the concrete three-node replacer state: frame 1 (the
single-access, +infinity-distance node) is evicted and the size drops. -/
theorem c5_evict_picks_max_backward_distance_witness :
    ((LRUK.evict LRUK.c5state).1 = none ↔
      ∀ m ∈ LRUK.c5state.nodeStore, m.isEvictable = false) ∧
    (LRUK.evict LRUK.c5state).2.currSize + 1 = LRUK.c5state.currSize := by
  have hinv : LRUK.ReplacerInv LRUK.c5state := by
    unfold LRUK.ReplacerInv LRUK.SIZEMAX
    refine ⟨by decide, by decide, by decide, by norm_num [LRUK.c5state], by decide⟩
  obtain ⟨h1, h2⟩ := c5_evict_picks_max_backward_distance LRUK.c5state hinv
  refine ⟨h1, ?_⟩
  obtain ⟨nf, _, _, _, _, _, _, hsz⟩ := h2 1 (by decide)
  exact hsz

namespace SSIS

/-- Helper: whenever the spec-side applicability condition holds with
constant list `l`, the code's `IsIndexFriendly` accepts the predicate and
`ExtractEqualityConditions` returns exactly `l`, which is non-empty. -/
theorem specOrKeys_extract (e : SExpr) (c : Nat) :
    ∀ l, specOrKeys e c = some l →
      isIndexFriendly e c = true ∧ extractEqualityConditions e c = l ∧ l ≠ [] := by
  induction e with
  | comparison ct lhs rhs ihl ihr =>
      clear ihl ihr
      intro l h
      cases ct with
      | other => cases lhs <;> cases rhs <;> simp only [specOrKeys, reduceCtorEq] at h
      | equal =>
          cases lhs <;> cases rhs <;> simp only [specOrKeys, reduceCtorEq] at h
          case column.constant c0 v =>
            by_cases hc : c0 = c
            · rw [if_pos hc] at h
              simp only [Option.some.injEq] at h
              subst h
              subst hc
              exact ⟨by simp [isIndexFriendly], by simp [extractEqualityConditions], by simp⟩
            · rw [if_neg hc] at h
              exact absurd h (by simp)
          case constant.column v c0 =>
            by_cases hc : c0 = c
            · rw [if_pos hc] at h
              simp only [Option.some.injEq] at h
              subst h
              subst hc
              exact ⟨by simp [isIndexFriendly], by simp [extractEqualityConditions], by simp⟩
            · rw [if_neg hc] at h
              exact absurd h (by simp)
  | logic lt lhs rhs ihl ihr =>
      intro l h
      cases lt with
      | andL => simp [specOrKeys] at h
      | orL =>
          simp only [specOrKeys] at h
          cases hl : specOrKeys lhs c with
          | none => rw [hl] at h; simp at h
          | some a =>
              cases hr : specOrKeys rhs c with
              | none => rw [hl, hr] at h; simp at h
              | some b =>
                  rw [hl, hr] at h
                  simp only [Option.some.injEq] at h
                  obtain ⟨hfl, hel, hnl⟩ := ihl a hl
                  obtain ⟨hfr, her, hnr⟩ := ihr b hr
                  refine ⟨?_, ?_, ?_⟩
                  · simp [isIndexFriendly, hfl, hfr]
                  · simp [extractEqualityConditions, hel, her, ← h]
                  · subst h
                    simp_all
  | column c0 =>
      intro l h
      simp [specOrKeys] at h
  | constant v0 =>
      intro l h
      simp [specOrKeys] at h
  | otherExpr =>
      intro l h
      simp [specOrKeys] at h

end SSIS

/-- C7 counterexample: the claim states the rewritten index scan carries one
`pred_keys_` entry per distinct constant; on the predicate
`col0 = 3 OR col0 = 3` the rule produces the key list `[3, 3]` — the
constant 3 appears twice, not once, because `ExtractEqualityConditions`
concatenates the OR branches without deduplication. -/
theorem c7_counterexample_duplicate_keys :
    SSIS.optimizeForIndex
      (.logic .orL (.comparison .equal (.column 0) (.constant 3))
        (.comparison .equal (.column 0) (.constant 3))) 0 =
      some { predKeys := [3, 3], filterPredicate := none } ∧
    List.count 3 [3, 3] ≠ 1 := by decide

/-- C7 as amended: whenever the predicate over the indexed column is an
OR-tree of `column = constant` / `constant = column` equalities with
constant list `l` (in predicate order, duplicates kept), the rule rewrites
the sequential scan into an index scan whose `pred_keys_` is exactly `l`
and whose filter predicate is null. -/
theorem c7_keys_in_predicate_order_filter_null (pred : SSIS.SExpr) (c : Nat)
    (l : List Nat) (h : SSIS.specOrKeys pred c = some l) :
    SSIS.optimizeForIndex pred c =
      some { predKeys := l, filterPredicate := none } := by
  obtain ⟨hf, he, hne⟩ := SSIS.specOrKeys_extract pred c l h
  unfold SSIS.optimizeForIndex
  rw [if_neg]
  · rw [he]
    simp [hne]
  · simp [hf]

/-- Witness for the amended C7 on `col0 = 3 OR 7 = col0`: the index scan
carries keys `[3, 7]` and a null filter. -/
theorem c7_keys_in_predicate_order_filter_null_witness :
    SSIS.optimizeForIndex
      (.logic .orL (.comparison .equal (.column 0) (.constant 3))
        (.comparison .equal (.constant 7) (.column 0))) 0 =
      some { predKeys := [3, 7], filterPredicate := none } := by
  apply c7_keys_in_predicate_order_filter_null
  rfl

namespace JEQ

/-- Helper: `Value::CompareEquals` is symmetric. -/
theorem compareEquals_comm (a b : Val) : compareEquals a b = compareEquals b a := by
  cases a <;> cases b <;> simp only [compareEquals]
  split_ifs <;> simp_all [eq_comm]

/-- Helper: `CmpTrue` results of `Value::CompareEquals` compose
transitively. -/
theorem compareEquals_trans (a b c : Val) (h1 : compareEquals a b = .cmpTrue)
    (h2 : compareEquals b c = .cmpTrue) : compareEquals a c = .cmpTrue := by
  cases a <;> cases b <;> cases c <;> simp_all [compareEquals]

/-- Helper: the `EqualKey` functor is symmetric. -/
theorem equalKeyL_comm (a b : List Val) : equalKeyL a b = equalKeyL b a := by
  induction a generalizing b with
  | nil => cases b <;> simp [equalKeyL]
  | cons x xs ih =>
      cases b with
      | nil => simp [equalKeyL]
      | cons y ys =>
          simp only [equalKeyL]
          rw [compareEquals_comm, ih]

/-- Helper: the `EqualKey` functor is transitive. -/
theorem equalKeyL_trans (a b c : List Val) (h1 : equalKeyL a b = true)
    (h2 : equalKeyL b c = true) : equalKeyL a c = true := by
  induction a generalizing b c with
  | nil =>
      cases b <;> cases c <;> simp_all [equalKeyL]
  | cons x xs ih =>
      cases b with
      | nil => simp [equalKeyL] at h1
      | cons y ys =>
          cases c with
          | nil => simp [equalKeyL] at h2
          | cons z zs =>
              simp only [equalKeyL] at h1 h2 ⊢
              split_ifs at h1 h2 with hxy hyz
              rw [if_pos (compareEquals_trans x y z hxy hyz)]
              exact ih ys zs h1 h2

/-- Helper: inserting under a key that is not `EqualKey`-equal to the probe
key leaves the probe result unchanged. -/
theorem htFind_insert_ne (t : HTable) (k lk : List Val) (r : Row)
    (h : ¬equalKeyL k lk = true) :
    htFind (htInsert t k r) lk = htFind t lk := by
  induction t with
  | nil =>
      simp only [htInsert, htFind]
      rw [if_neg h]
  | cons b rest ih =>
      obtain ⟨k0, rs0⟩ := b
      simp only [htInsert]
      by_cases hk0 : equalKeyL k0 k = true
      · rw [if_pos hk0]
        have hk0lk : ¬equalKeyL k0 lk = true := by
          intro hcon
          exact h (equalKeyL_trans k k0 lk (by rwa [equalKeyL_comm] at hk0) hcon)
        simp only [htFind]
        rw [if_neg hk0lk, if_neg hk0lk]
      · rw [if_neg hk0]
        simp only [htFind]
        by_cases hk0lk : equalKeyL k0 lk = true
        · rw [if_pos hk0lk, if_pos hk0lk]
        · rw [if_neg hk0lk, if_neg hk0lk]
          exact ih

/-- Helper: inserting under a key `EqualKey`-equal to the probe key appends
the tuple to the probed bucket. -/
theorem htFind_insert_eq (t : HTable) (k lk : List Val) (r : Row)
    (h : equalKeyL k lk = true) :
    htFind (htInsert t k r) lk = some ((htFind t lk).getD [] ++ [r]) := by
  induction t with
  | nil =>
      simp only [htInsert, htFind]
      rw [if_pos h]
      simp
  | cons b rest ih =>
      obtain ⟨k0, rs0⟩ := b
      simp only [htInsert]
      by_cases hk0 : equalKeyL k0 k = true
      · rw [if_pos hk0]
        have hk0lk : equalKeyL k0 lk = true := equalKeyL_trans k0 k lk hk0 h
        simp only [htFind]
        rw [if_pos hk0lk, if_pos hk0lk]
        simp
      · rw [if_neg hk0]
        have hk0lk : ¬equalKeyL k0 lk = true := by
          intro hcon
          exact hk0 (equalKeyL_trans k0 lk k hcon (by rwa [equalKeyL_comm] at h))
        simp only [htFind]
        rw [if_neg hk0lk, if_neg hk0lk]
        exact ih

/-- Helper: probing after folding a tuple list into the table yields the
prior bucket followed by the tuples whose key matches the probe key, in
order. -/
theorem htFind_build_aux (rcols : List Nat) (lk : List Val) :
    ∀ (rs : List Row) (t : HTable),
      (htFind (rs.foldl (fun t r => htInsert t (keyOf rcols r) r) t) lk).getD [] =
        (htFind t lk).getD [] ++ rs.filter (fun r => equalKeyL (keyOf rcols r) lk) := by
  intro rs
  induction rs with
  | nil =>
      intro t
      simp
  | cons r rest ih =>
      intro t
      simp only [List.foldl_cons, List.filter_cons]
      by_cases h : equalKeyL (keyOf rcols r) lk = true
      · rw [ih (htInsert t (keyOf rcols r) r), htFind_insert_eq t _ lk r h]
        simp [h]
      · rw [ih (htInsert t (keyOf rcols r) r), htFind_insert_ne t _ lk r h]
        simp only [h]
        simp

/-- Helper: probing the built table returns exactly the build-side tuples
whose key is `EqualKey`-equal to the probe key, in build order. -/
theorem htFind_build (rcols : List Nat) (lk : List Val) (rs : List Row) :
    (htFind (buildTable rcols rs) lk).getD [] =
      rs.filter (fun r => equalKeyL (keyOf rcols r) lk) := by
  have h := htFind_build_aux rcols lk rs []
  simpa [buildTable, htFind] using h

/-- Helper: the NLJ acceptance test distributes over three-valued AND. -/
theorem acceptVal_and3 (a b : Option Bool) :
    acceptVal (and3 a b) = (acceptVal a && acceptVal b) := by
  rcases a with _ | a
  · rcases b with _ | b
    · rfl
    · cases b <;> rfl
  · rcases b with _ | b
    · cases a <;> rfl
    · cases a <;> cases b <;> rfl

/-- Helper: on a single equality node, the NLJ acceptance test agrees with
`EqualKey` on the singleton key vectors. -/
theorem accept_eqCols (i j : Nat) (l r : Row) :
    acceptVal (evalJoin (.eqCols i j) l r) =
      equalKeyL [colVal l i] [colVal r j] := by
  simp only [evalJoin, equalKeyL]
  cases h : compareEquals (colVal l i) (colVal r j) <;> simp [acceptVal, h]

/-- Helper: on a non-empty conjunction of column equalities, the NLJ
acceptance test agrees with `EqualKey` on the extracted key vectors. -/
theorem accept_pred_eq_equalKey (ps : List (Nat × Nat)) (hps : ps ≠ [])
    (l r : Row) :
    acceptVal (evalJoin (predOfPairs ps) l r) =
      equalKeyL (keyOf (ps.map Prod.fst) l) (keyOf (ps.map Prod.snd) r) := by
  induction ps with
  | nil => exact absurd rfl hps
  | cons p rest ih =>
      obtain ⟨i, j⟩ := p
      cases rest with
      | nil =>
          simp only [predOfPairs, List.map, keyOf]
          exact accept_eqCols i j l r
      | cons q rest2 =>
          have hne : (q :: rest2) ≠ ([] : List (Nat × Nat)) := by simp
          simp only [predOfPairs]
          rw [show evalJoin (.andP (.eqCols i j) (predOfPairs (q :: rest2))) l r =
            and3 (evalJoin (.eqCols i j) l r) (evalJoin (predOfPairs (q :: rest2)) l r)
            from rfl]
          rw [acceptVal_and3, ih hne, accept_eqCols i j l r]
          simp only [List.map, keyOf, equalKeyL]
          by_cases hc : compareEquals (colVal l i) (colVal r j) = CmpBool.cmpTrue <;>
            simp [hc, keyOf]

/-- Helper: the per-left-tuple NLJ inner loop is the filtered match list,
followed by the LEFT-join NULL padding exactly when no match was seen. -/
theorem nljInner_eq (jt : JoinType) (p : JPred) (l : Row) (rw : Nat) :
    ∀ (rs : List Row) (matched : Bool),
      nljInner jt p l rs matched rw =
        (rs.filter (fun r => acceptVal (evalJoin p l r))).map (fun r => l ++ r) ++
        (if jt = .left ∧ matched = false ∧
            rs.filter (fun r => acceptVal (evalJoin p l r)) = [] then
          [l ++ nullRow rw] else []) := by
  intro rs
  induction rs with
  | nil =>
      intro matched
      simp [nljInner]
  | cons r rest ih =>
      intro matched
      simp only [nljInner, List.filter_cons]
      by_cases h : acceptVal (evalJoin p l r) = true
      · simp only [h, if_true]
        rw [ih true]
        simp
      · simp only [h, if_false]
        rw [ih matched]
        simp

end JEQ

/-- C8: for every non-empty list of equi-join column pairs, the hash join
produces exactly the same tuple stream (same rows, same order) as the
nested-loop join with the corresponding conjunctive equality predicate, for
both INNER and LEFT join types; and the LEFT-join stream pads each
unmatched left tuple with one NULL-extended row while matched left tuples
contribute exactly their matches. -/
theorem c8_hash_join_equals_nested_loop_join (jt : JEQ.JoinType)
    (ps : List (Nat × Nat)) (hps : ps ≠ []) (ls rs : List JEQ.Row) (rw : Nat) :
    JEQ.hashJoinRun jt (ps.map Prod.fst) (ps.map Prod.snd) ls rs rw =
      JEQ.nljRun jt (JEQ.predOfPairs ps) ls rs rw ∧
    JEQ.nljRun .left (JEQ.predOfPairs ps) ls rs rw =
      ls.flatMap (fun l =>
        if rs.filter (fun r =>
            JEQ.acceptVal (JEQ.evalJoin (JEQ.predOfPairs ps) l r)) = [] then
          [l ++ JEQ.nullRow rw]
        else (rs.filter (fun r =>
            JEQ.acceptVal (JEQ.evalJoin (JEQ.predOfPairs ps) l r))).map
          (fun r => l ++ r)) := by
  have hms : ∀ l : JEQ.Row,
      (JEQ.htFind (JEQ.buildTable (ps.map Prod.snd) rs)
          (JEQ.keyOf (ps.map Prod.fst) l)).getD []
        = rs.filter (fun r => JEQ.acceptVal (JEQ.evalJoin (JEQ.predOfPairs ps) l r)) := by
    intro l
    rw [JEQ.htFind_build]
    congr 1
    funext r
    rw [JEQ.accept_pred_eq_equalKey ps hps l r, JEQ.equalKeyL_comm]
  have hbody : ∀ l : JEQ.Row,
      (let ms := (JEQ.htFind (JEQ.buildTable (ps.map Prod.snd) rs)
          (JEQ.keyOf (ps.map Prod.fst) l)).getD []
        if ms.isEmpty then (if jt = .left then [l ++ JEQ.nullRow rw] else [])
        else ms.map (fun r => l ++ r)) =
      JEQ.nljInner jt (JEQ.predOfPairs ps) l rs false rw := by
    intro l
    dsimp only
    rw [hms l, JEQ.nljInner_eq]
    by_cases hemp : rs.filter (fun r =>
        JEQ.acceptVal (JEQ.evalJoin (JEQ.predOfPairs ps) l r)) = []
    · simp only [hemp]
      cases jt <;> simp
    · rw [if_neg (by simpa using hemp)]
      simp [hemp]
  have hbody2 : ∀ l : JEQ.Row,
      JEQ.nljInner .left (JEQ.predOfPairs ps) l rs false rw =
        (if rs.filter (fun r =>
            JEQ.acceptVal (JEQ.evalJoin (JEQ.predOfPairs ps) l r)) = [] then
          [l ++ JEQ.nullRow rw]
        else (rs.filter (fun r =>
            JEQ.acceptVal (JEQ.evalJoin (JEQ.predOfPairs ps) l r))).map
          (fun r => l ++ r)) := by
    intro l
    rw [JEQ.nljInner_eq]
    by_cases hemp : rs.filter (fun r =>
        JEQ.acceptVal (JEQ.evalJoin (JEQ.predOfPairs ps) l r)) = []
    · simp [hemp]
    · simp [hemp]
  constructor
  · unfold JEQ.hashJoinRun JEQ.nljRun
    induction ls with
    | nil => rfl
    | cons a t ih =>
        simp only [List.flatMap_cons] at ih ⊢
        rw [hbody a, ih]
  · unfold JEQ.nljRun
    induction ls with
    | nil => rfl
    | cons a t ih =>
        simp only [List.flatMap_cons] at ih ⊢
        rw [hbody2 a, ih]

/-- Witness for C8 at a concrete LEFT join on column 0: two left tuples, one
matching right tuple. -/
theorem c8_hash_join_equals_nested_loop_join_witness :
    JEQ.hashJoinRun .left ([(0, 0)].map Prod.fst) ([(0, 0)].map Prod.snd)
        [[some 1], [some 2]] [[some 1, some 9]] 2 =
      JEQ.nljRun .left (JEQ.predOfPairs [(0, 0)]) [[some 1], [some 2]]
        [[some 1, some 9]] 2 := by
  exact (c8_hash_join_equals_nested_loop_join .left [(0, 0)] (by simp)
    [[some 1], [some 2]] [[some 1, some 9]] 2).1
